import Mathlib

/-!
The conversion of markdown to a makefile (`makedown.go`)

A shallow embedding of `makedown.go`.  The document tree built by the
markdown parser is the input of the model: a node has a type tag, a literal
and an ordered list of children, and a node is always handled together with
the list of its preceding siblings (nearest first), which is what the chain of
`Prev` pointers of the parser's nodes holds.

Go strings are modelled as lists of characters; the source name, which is
printed with the verb `%q`, is a `GoString`, which also holds the bytes of the
name that are no valid UTF-8.  A run of the program that
does not return (a run-time panic, or `log.Fatal`) is modelled as `none`.
-/

namespace Makedown

/-- Go `string` and `[]byte` values, as a list of characters. -/
abbrev Text := List Char

/-- Node types of the markdown parser (`blackfriday.NodeType`). -/
inductive NodeType where
  | Document | BlockQuote | List | Item | Paragraph | Heading | HorizontalRule
  | Emph | Strong | Del | Link | Image | Text | HTMLBlock | CodeBlock
  | Softbreak | Hardbreak | Code | HTMLSpan | Table | TableCell | TableHead
  | TableBody | TableRow
  deriving DecidableEq, Repr

/-- A node of the document tree: its type, its literal and its children in
document order (`FirstChild` is the head of the list, `LastChild` its last
element). -/
inductive Node where
  | mk (type : NodeType) (literal : Text) (children : List Node)

namespace Node

/-- Field `Type` of a node. -/
def type : Node → NodeType
  | mk t _ _ => t

/-- Field `Literal` of a node. -/
def literal : Node → Text
  | mk _ l _ => l

/-- The children of a node, first child first. -/
def children : Node → List Node
  | mk _ _ cs => cs

/-- Field `LastChild` of a node, `none` for the nil pointer. -/
def LastChild (n : Node) : Option Node := n.children.getLast?

end Node

/-- A node pointer: the node together with its preceding siblings, nearest
first (the chain reached through `Prev`). -/
structure NodeRef where
  prevs : List Node
  node : Node

/-- The parser's `isContainer`: the node types that may hold children. -/
def NodeType.isContainer : NodeType → Bool
  | .Document | .BlockQuote | .List | .Item | .Paragraph | .Heading | .Emph
  | .Strong | .Del | .Link | .Image | .Table | .TableHead | .TableBody
  | .TableRow | .TableCell => true
  | _ => false

/-- The parser's `IsLeaf`: a node is a leaf when its type is no container. -/
def NodeRef.IsLeaf (n : NodeRef) : Bool := !n.node.type.isContainer

/-- The status a node visitor returns (`blackfriday.WalkStatus`). -/
inductive WalkStatus where
  | GoToNext | SkipChildren | Terminate
  deriving DecidableEq, Repr

/-- A node visitor over a state `σ`: the Go closures write to variables they
capture, here the state is passed and returned; `none` is a run that does not
return. -/
abbrev NodeVisitor (σ : Type) := σ → NodeRef → Bool → Option (σ × WalkStatus)

mutual
/-- The parser's `Walk` below and including one node: the visitor is called on
entering the node; the children of a container are walked next, and the
visitor is called again on leaving it.  `SkipChildren` moves on to what follows
the node, `Terminate` stops the whole walk (the returned flag). -/
def walkNode {σ : Type} (visitor : NodeVisitor σ) (prevs : List Node) :
    Node → σ → Option (σ × Bool)
  | .mk ty lit cs, s =>
    match visitor s ⟨prevs, .mk ty lit cs⟩ true with
    | none => none
    | some (s1, .Terminate) => some (s1, true)
    | some (s1, .SkipChildren) => some (s1, false)
    | some (s1, .GoToNext) =>
      if ty.isContainer then
        match walkChildren visitor [] cs s1 with
        | none => none
        | some (s2, true) => some (s2, true)
        | some (s2, false) =>
          match visitor s2 ⟨prevs, .mk ty lit cs⟩ false with
          | none => none
          | some (s3, .Terminate) => some (s3, true)
          | some (s3, _) => some (s3, false)
      else some (s1, false)
/-- The walk over a list of siblings, in order; `prevs` are the siblings
already passed, nearest first. -/
def walkChildren {σ : Type} (visitor : NodeVisitor σ) (prevs : List Node) :
    List Node → σ → Option (σ × Bool)
  | [], s => some (s, false)
  | c :: rest, s =>
    match walkNode visitor prevs c s with
    | none => none
    | some (s1, true) => some (s1, true)
    | some (s1, false) => walkChildren visitor (c :: prevs) rest s1
end

/-- Method `Walk` of a node: the walk of the subtree below the node, the node
included. -/
def NodeRef.Walk {σ : Type} (n : NodeRef) (visitor : NodeVisitor σ) (s : σ) : Option σ :=
  (walkNode visitor n.prevs n.node s).map Prod.fst

/-! ## Text helpers of the Go standard library -/

/-- Go `strings.HasSuffix`. -/
def HasSuffix (s suffix : Text) : Bool := suffix.isSuffixOf s

/-- Go `strings.HasPrefix`. -/
def HasPrefix (s pre : Text) : Bool := pre.isPrefixOf s

/-- Go slice expression `s[1:]`: a run-time panic (`none`) on the empty
string, otherwise the string without its first element.  The program uses the
value only where the first element is the one-byte character `:`. -/
def sliceFrom1 (s : Text) : Option Text :=
  if 1 ≤ s.length then some (s.drop 1) else none

/-- Go `strings.ReplaceAll(s, "\r\n", "\n")`: every carriage return that a
line feed follows is dropped, scanning from the left. -/
def replaceCRLF : Text → Text
  | [] => []
  | c :: rest =>
    if c = '\r' ∧ rest.head? = some '\n' then replaceCRLF rest
    else c :: replaceCRLF rest

/-- Go `strings.Split(s, "\n")`: the pieces between line feeds; a text with
`k` line feeds has `k + 1` pieces, the empty text has the one piece `""`. -/
def splitLines : Text → List Text
  | [] => [[]]
  | c :: rest =>
    if c = '\n' then [] :: splitLines rest
    else
      match splitLines rest with
      | [] => [[c]]
      | line :: lines => (c :: line) :: lines

/-- The sixteen digits `strconv` writes escapes with. -/
def lowerhex : Text := "0123456789abcdef".toList

/-- The digit of `lowerhex` at an index taken modulo sixteen. -/
def hexDigit (n : Nat) : Char := lowerhex.getD (n % 16) '0'

/-- Go `strconv.IsPrint`: the Latin-1 range is decided as the library does,
above it the library consults its tables, here the parameter `wide`. -/
def IsPrint (wide : Nat → Bool) (r : Nat) : Bool :=
  if r ≤ 0xFF then
    if 0x20 ≤ r ∧ r ≤ 0x7E then true
    else if 0xA1 ≤ r ∧ r ≤ 0xFF then r != 0xAD
    else false
  else wide r

/-- Go `strconv.appendEscapedRune` for the double quote as quote character,
neither ASCII-only nor graphic-only (what `%q` asks for). -/
def appendEscapedRune (wide : Nat → Bool) (buf : Text) (r : Char) : Text :=
  if r = '"' ∨ r = '\\' then buf ++ ['\\', r]
  else if IsPrint wide r.toNat then buf ++ [r]
  else if r = '\x07' then buf ++ ['\\', 'a']
  else if r = '\x08' then buf ++ ['\\', 'b']
  else if r = '\x0c' then buf ++ ['\\', 'f']
  else if r = '\n' then buf ++ ['\\', 'n']
  else if r = '\r' then buf ++ ['\\', 'r']
  else if r = '\t' then buf ++ ['\\', 't']
  else if r = '\x0b' then buf ++ ['\\', 'v']
  else if r.toNat < 0x20 ∨ r.toNat = 0x7F then
    buf ++ ['\\', 'x', hexDigit (r.toNat / 16), hexDigit r.toNat]
  else if r.toNat < 0x10000 then
    buf ++ ['\\', 'u', hexDigit (r.toNat / 4096), hexDigit (r.toNat / 256),
      hexDigit (r.toNat / 16), hexDigit r.toNat]
  else
    buf ++ ['\\', 'U', hexDigit (r.toNat / 268435456), hexDigit (r.toNat / 16777216),
      hexDigit (r.toNat / 1048576), hexDigit (r.toNat / 65536),
      hexDigit (r.toNat / 4096), hexDigit (r.toNat / 256),
      hexDigit (r.toNat / 16), hexDigit r.toNat]

/-- One step of the loop of `strconv.Quote` over a Go string: the loop reads
either a rune, or a byte that starts no valid UTF-8 sequence (the decoder
reports it as `RuneError` of width 1). -/
inductive StrUnit where
  | rune (r : Char)
  | invalid (b : Nat)
  deriving DecidableEq, Repr

/-- A Go string as `strconv.Quote` reads it: the sequence of its runes and of
its bytes that are no valid UTF-8. -/
abbrev GoString := List StrUnit

/-- The Go string of a text: every character is a rune of the string. -/
def GoString.ofText (t : Text) : GoString := t.map StrUnit.rune

/-- The body of the loop of `strconv.appendQuotedWith`: a byte that is no
valid UTF-8 is written as `\x` and its two hexadecimal digits, a rune goes
through `appendEscapedRune`. -/
def appendQuotedUnit (wide : Nat → Bool) (buf : Text) : StrUnit → Text
  | StrUnit.invalid b => buf ++ ['\\', 'x', hexDigit (b / 16), hexDigit b]
  | StrUnit.rune r => appendEscapedRune wide buf r

/-- Go `strconv.Quote`, the text the verb `%q` prints for a string: the
string between double quotes, with double quotes, backslashes, characters
that are not printable and bytes that are no valid UTF-8 written as escape
sequences. -/
def Quote (wide : Nat → Bool) (s : GoString) : Text :=
  ['"'] ++ s.foldl (appendQuotedUnit wide) [] ++ ['"']

/-- A character that `strconv.Quote` writes as it is: printable, and neither a
double quote nor a backslash. -/
def Plain (wide : Nat → Bool) (c : Char) : Prop :=
  c ≠ '"' ∧ c ≠ '\\' ∧ IsPrint wide c.toNat = true

/-- A Go `error` value, as its message. -/
abbrev GoError := Text

/-! ## The functions of `makedown.go` -/

/-- Function `isHeadingWithColon`: is the node a heading whose last child has a
literal that ends with a colon; the second component is that literal. -/
def isHeadingWithColon (node : NodeRef) : Bool × Text :=
  if node.node.type = NodeType.Heading then
    match node.node.LastChild with
    | some lastWordNode =>
      let lastWord := lastWordNode.literal
      if HasSuffix lastWord [':'] then (true, lastWord) else (false, [])
    | none => (false, [])
  else (false, [])

/-- The loop of `findSiblingWithType` over the chain of `Prev` pointers. -/
def findSiblingWithTypeLoop (nodeType : NodeType) : List Node → Bool × Option NodeRef
  | [] => (false, none)
  | sibling :: prev =>
    if sibling.type = nodeType then (true, some ⟨prev, sibling⟩)
    else findSiblingWithTypeLoop nodeType prev

/-- Function `findSiblingWithType`: the nearest preceding sibling of a given
type. -/
def findSiblingWithType (node : NodeRef) (nodeType : NodeType) : Bool × Option NodeRef :=
  findSiblingWithTypeLoop nodeType node.prevs

/-- The loop of `findSiblingWithTypeBefore` over the chain of `Prev`
pointers. -/
def findSiblingWithTypeBeforeLoop (nodeType beforeType : NodeType) :
    List Node → Bool × Option NodeRef
  | [] => (false, none)
  | sibling :: prev =>
    if sibling.type = beforeType then (false, some ⟨prev, sibling⟩)
    else if sibling.type = nodeType then (true, some ⟨prev, sibling⟩)
    else findSiblingWithTypeBeforeLoop nodeType beforeType prev

/-- Function `findSiblingWithTypeBefore`: the nearest preceding sibling of a
given type, the search stopping at a sibling of the type `beforeType`. -/
def findSiblingWithTypeBefore (node : NodeRef) (nodeType beforeType : NodeType) :
    Bool × Option NodeRef :=
  findSiblingWithTypeBeforeLoop nodeType beforeType node.prevs

/-- Function `findSiblingHeadingWithColon`: the target of the nearest preceding
sibling heading, when that heading ends with a colon. -/
def findSiblingHeadingWithColon (node : NodeRef) : Bool × Text :=
  match findSiblingWithType node NodeType.Heading with
  | (true, some heading) =>
    match isHeadingWithColon heading with
    | (true, target) => (true, target)
    | (false, _) => (false, [])
  | _ => (false, [])

/-- The variables the closure of `leafWalker` captures. -/
structure LeafState where
  buff : Text
  fmterr : Option GoError

/-- Function `leafWalker`: on entering a leaf its literal is written to the
buffer; the error variable is never assigned. -/
def leafWalker : NodeVisitor LeafState := fun st node entering =>
  if entering then
    if node.IsLeaf then
      some ({ st with buff := st.buff ++ node.node.literal }, WalkStatus.GoToNext)
    else some (st, WalkStatus.GoToNext)
  else some (st, WalkStatus.GoToNext)

/-- Function `isBlockQuoteWithColon`: for a block quote the literals of the
leaves below it are concatenated; the logging statement slices the result from
index 1 before the prefix is tested. -/
def isBlockQuoteWithColon (node : NodeRef) : Option (Bool × Text × Text) :=
  if node.node.type = NodeType.BlockQuote then
    match node.Walk leafWalker ⟨[], none⟩ with
    | none => none
    | some st =>
      match st.fmterr with
      | some _ => none
      | none =>
        let prerequisites := st.buff
        match sliceFrom1 prerequisites with
        | none => none
        | some _ =>
          if HasPrefix prerequisites [':'] then
            match sliceFrom1 prerequisites with
            | none => none
            | some quotes =>
              let (found, target) := findSiblingHeadingWithColon node
              some (found, target, quotes)
          else some (false, [], [])
  else some (false, [], [])

/-- Function `isCodeBlockUnderHeadingWithColon`: heading found, first code
block, target, recipes. -/
def isCodeBlockUnderHeadingWithColon (node : NodeRef) : Bool × Bool × Text × Text :=
  if node.node.type = NodeType.CodeBlock then
    let recipes := node.node.literal
    match findSiblingHeadingWithColon node with
    | (true, target) =>
      let codeBlockFound := (findSiblingWithTypeBefore node NodeType.CodeBlock NodeType.Heading).1
      (true, !codeBlockFound, target, recipes)
    | (false, _) => (false, false, [], [])
  else (false, false, [], [])

/-- Function `addIndents`: every line of the recipes gets a tab in front and a
line feed behind. -/
def addIndents (recipes : Text) : Text :=
  (splitLines (replaceCRLF recipes)).foldl
    (fun recipesWithIndent line => recipesWithIndent ++ ['\t'] ++ line ++ ['\n']) []

/-- The variables the closure of `makedownWalker` captures. -/
structure WalkerState where
  buff : Text
  targets : List Text
  fmterr : Option GoError

/-- Function `makedownWalker`, the visitor of the conversion. -/
def makedownWalker : NodeVisitor WalkerState := fun st node entering =>
  if entering then
    match isBlockQuoteWithColon node with
    | none => none
    | some (isBlockQuote, target, quotes) =>
      let st1 : WalkerState :=
        if isBlockQuote then { st with buff := st.buff ++ target ++ quotes ++ ['\n'] } else st
      match isCodeBlockUnderHeadingWithColon node with
      | (true, isFirstCodeBlock, target, recipes) =>
        if target = "variables:".toList ∨ target = "makedown:".toList then
          some ({ st1 with buff := st1.buff ++ recipes ++ ['\n'] }, WalkStatus.GoToNext)
        else
          let st2 : WalkerState :=
            if isFirstCodeBlock then
              { st1 with targets := st1.targets ++ [target],
                         buff := st1.buff ++ target ++ ['\n'] }
            else st1
          some ({ st2 with buff := st2.buff ++ addIndents recipes }, WalkStatus.GoToNext)
      | (false, _, _, _) => some (st1, WalkStatus.GoToNext)
  else some (st, WalkStatus.GoToNext)

/-- The footer line for a source name. -/
def footer (wide : Nat → Bool) (input_filename : GoString) : Text :=
  "\n# This makefile is generated by makedown from ".toList ++ Quote wide input_filename
    ++ ['\n']

/-- Function `GenerateMakefileFromMarkdown`, on the document tree `n` the
parser returns for the input: the output bytes (`none` for nil), the targets
and the error (`none` for nil). -/
def GenerateMakefileFromMarkdown (wide : Nat → Bool) (input_filename : GoString)
    (n : Node) :
    Option (Option Text × List Text × Option GoError) :=
  match (NodeRef.mk [] n).Walk makedownWalker ⟨[], [], none⟩ with
  | none => none
  | some st =>
    match st.fmterr with
    | some err => some (none, st.targets, some err)
    | none => some (some (st.buff ++ footer wide input_filename), st.targets, none)

/-! ## Document trees of the examples -/

/-- A text leaf. -/
def mkText (s : Text) : Node := Node.mk NodeType.Text s []

/-- A heading whose single child is a text leaf. -/
def mkHeading (t : Text) : Node := Node.mk NodeType.Heading [] [mkText t]

/-- A code block with its literal. -/
def mkCodeBlock (r : Text) : Node := Node.mk NodeType.CodeBlock r []

/-- A block quote with its children. -/
def mkBlockQuote (cs : List Node) : Node := Node.mk NodeType.BlockQuote [] cs

/-- A paragraph with a single text leaf. -/
def mkParagraph (s : Text) : Node := Node.mk NodeType.Paragraph [] [mkText s]

/-- A document root with its children. -/
def mkDocument (cs : List Node) : Node := Node.mk NodeType.Document [] cs

mutual
/-- The literals of the leaves of a subtree, concatenated in document order:
the literal of a leaf, and for a container what its children give. -/
def leafText : Node → Text
  | .mk ty lit cs => if ty.isContainer then leafTextList cs else lit
/-- The literals of the leaves below a list of siblings, concatenated. -/
def leafTextList : List Node → Text
  | [] => []
  | c :: rest => leafText c ++ leafTextList rest
end

/-- What one visit of `makedownWalker` writes to the buffer and appends to the
targets when it enters a node. -/
def visitOut (node : NodeRef) : Option (Text × List Text) :=
  (makedownWalker ⟨[], [], none⟩ node true).map fun r => (r.1.buff, r.1.targets)

mutual
/-- What the conversion writes and records over a subtree: the visit of the
node, then the children of a container. -/
def emitNode (prevs : List Node) : Node → Option (Text × List Text)
  | .mk ty lit cs =>
    match visitOut ⟨prevs, .mk ty lit cs⟩ with
    | none => none
    | some a =>
      if ty.isContainer then
        match emitChildren [] cs with
        | none => none
        | some b => some (a.1 ++ b.1, a.2 ++ b.2)
      else some a
/-- What the conversion writes and records over a list of siblings. -/
def emitChildren (prevs : List Node) : List Node → Option (Text × List Text)
  | [] => some ([], [])
  | c :: rest =>
    match emitNode prevs c with
    | none => none
    | some a =>
      match emitChildren (c :: prevs) rest with
      | none => none
      | some b => some (a.1 ++ b.1, a.2 ++ b.2)
end

/-- The state after the conversion has written `a.1` and recorded `a.2`. -/
def WalkerState.add (st : WalkerState) (a : Text × List Text) : WalkerState :=
  ⟨st.buff ++ a.1, st.targets ++ a.2, st.fmterr⟩


mutual
/-- No node of the subtree is a block quote or a code block. -/
def noBlocks : Node → Bool
  | .mk ty _ cs =>
    decide (ty ≠ NodeType.BlockQuote) && decide (ty ≠ NodeType.CodeBlock) && noBlocksList cs
/-- No node below a list of siblings is a block quote or a code block. -/
def noBlocksList : List Node → Bool
  | [] => true
  | c :: rest => noBlocks c && noBlocksList rest
end

/-! ## Target headings and the code blocks they govern -/

/-- The name a heading declares as a target: the heading satisfies
`isHeadingWithColon` with a name that is not reserved. -/
def targetName (h : Node) : Option Text :=
  if (isHeadingWithColon ⟨[], h⟩).1 = true ∧
      (isHeadingWithColon ⟨[], h⟩).2 ≠ "variables:".toList ∧
      (isHeadingWithColon ⟨[], h⟩).2 ≠ "makedown:".toList then
    some (isHeadingWithColon ⟨[], h⟩).2
  else none

/-- Among the later siblings of a node there is a code block with no heading
before it. -/
def codeBlockFollows : List Node → Bool
  | [] => false
  | c :: rest =>
    if c.type = NodeType.Heading then false
    else if c.type = NodeType.CodeBlock then true
    else codeBlockFollows rest

/-- The name of a heading that governs a code block among its later siblings:
one entry for such a heading occurrence, none for any other node. -/
def governedName (h : Node) (later : List Node) : List Text :=
  if codeBlockFollows later = true then (targetName h).toList else []

mutual
/-- The names of the governing headings strictly below a node, one per heading
occurrence, in document (pre-order) order of the headings. -/
def governingHeadings : Node → List Text
  | .mk _ _ cs => governingHeadingsList cs
/-- The names of the governing headings in a list of siblings and below them,
in document order. -/
def governingHeadingsList : List Node → List Text
  | [] => []
  | c :: rest => governedName c rest ++ governingHeadings c ++ governingHeadingsList rest
end

mutual
/-- A tree as the parser builds it: only containers have children. -/
def WellFormed : Node → Bool
  | .mk ty _ cs => (ty.isContainer || cs.isEmpty) && WellFormedList cs
/-- Every tree of the list is as the parser builds it. -/
def WellFormedList : List Node → Bool
  | [] => true
  | c :: rest => WellFormed c && WellFormedList rest
end

/-- The target that is still open at the end of a run of siblings (nearest
first): the nearest heading or code block is a heading that declares a
target. -/
def openTarget : List Node → Option Text
  | [] => none
  | p :: ps =>
    if p.type = NodeType.Heading then targetName p
    else if p.type = NodeType.CodeBlock then none
    else openTarget ps

/-- The targets the visit of a node records. -/
def recordedBy (prevs : List Node) (n : Node) : List Text :=
  if n.type = NodeType.CodeBlock then (openTarget prevs).toList else []

mutual
/-- The targets recorded over a subtree, in the order of the walk. -/
def targetsNode (prevs : List Node) : Node → List Text
  | .mk ty lit cs =>
    recordedBy prevs (.mk ty lit cs) ++ (if ty.isContainer then targetsChildren [] cs else [])
/-- The targets recorded over a list of siblings, in the order of the walk. -/
def targetsChildren (prevs : List Node) : List Node → List Text
  | [] => []
  | c :: rest => targetsNode prevs c ++ targetsChildren (c :: prevs) rest
end

/-- The entry that is still to be recorded for the target open at the end of
`prevs`, when a code block follows in `cs` before any heading. -/
def pendingTarget (prevs cs : List Node) : List Text :=
  if codeBlockFollows cs = true then (openTarget prevs).toList else []

mutual
/-- No node of the subtree satisfies `isHeadingWithColon`. -/
def noTargetHeading : Node → Bool
  | .mk ty lit cs => !(isHeadingWithColon ⟨[], .mk ty lit cs⟩).1 && noTargetHeadingList cs
/-- No node below a list of siblings satisfies `isHeadingWithColon`. -/
def noTargetHeadingList : List Node → Bool
  | [] => true
  | c :: rest => noTargetHeading c && noTargetHeadingList rest
end

mutual
/-- No node of the subtree is a code block. -/
def noCodeBlock : Node → Bool
  | .mk ty _ cs => decide (ty ≠ NodeType.CodeBlock) && noCodeBlockList cs
/-- No node below a list of siblings is a code block. -/
def noCodeBlockList : List Node → Bool
  | [] => true
  | c :: rest => noCodeBlock c && noCodeBlockList rest
end

/-- The nodes of a tree in the order in which the parser's `Walk` enters
them. -/
def enterOrder (n : Node) : List Node :=
  ((NodeRef.mk [] n).Walk
    (fun (st : List Node) node entering =>
      some (if entering then st ++ [node.node] else st, WalkStatus.GoToNext)) []).getD []

mutual
/-- The condition under which the walk records the targets in the order of
their headings, below a node. -/
def orderSafe : Node → Bool
  | .mk _ _ cs => orderSafeList [] cs
/-- The condition over a list of siblings: no code block lies below a
governing heading, nor below a sibling that stands between a target heading and
the first code block after it; every other sibling satisfies the condition
below it. -/
def orderSafeList (prevs : List Node) : List Node → Bool
  | [] => true
  | c :: rest =>
    (if (pendingTarget prevs (c :: rest)).isEmpty && (governedName c rest).isEmpty then
        orderSafe c
      else noCodeBlockList c.children) &&
    orderSafeList (c :: prevs) rest
end

/-- The text after the first tab of `addIndents`, character by character: a
tab follows every line feed of the text, and a line feed ends the result. -/
def indentBody : Text → Text
  | [] => ['\n']
  | c :: r => if c = '\n' then '\n' :: '\t' :: indentBody r else c :: indentBody r
/-! ## The walks in closed form -/

mutual
theorem walkNode_leafWalker (prevs : List Node) :
    ∀ (n : Node) (st : LeafState),
      walkNode leafWalker prevs n st = some (⟨st.buff ++ leafText n, st.fmterr⟩, false)
  | .mk ty lit cs, st => by
    rw [walkNode, leafText]
    by_cases h : ty.isContainer = true
    · simp [leafWalker, NodeRef.IsLeaf, Node.type, h, walkChildren_leafWalker [] cs]
    · simp [leafWalker, NodeRef.IsLeaf, Node.type, h, Node.literal]
theorem walkChildren_leafWalker (prevs : List Node) :
    ∀ (cs : List Node) (st : LeafState),
      walkChildren leafWalker prevs cs st = some (⟨st.buff ++ leafTextList cs, st.fmterr⟩, false)
  | [], st => by simp [walkChildren, leafTextList]
  | c :: rest, st => by
    rw [walkChildren, walkNode_leafWalker prevs c st, leafTextList]
    simp [walkChildren_leafWalker (c :: prevs) rest]
end

theorem isBlockQuoteWithColon_eq (node : NodeRef) :
    isBlockQuoteWithColon node =
      if node.node.type = NodeType.BlockQuote then
        match leafText node.node with
        | [] => none
        | c :: p =>
          if c = ':' then
            some ((findSiblingHeadingWithColon node).1, (findSiblingHeadingWithColon node).2, p)
          else some (false, [], [])
      else some (false, [], []) := by
  unfold isBlockQuoteWithColon
  by_cases h : node.node.type = NodeType.BlockQuote
  · simp only [h, if_true, NodeRef.Walk, walkNode_leafWalker, Option.map_some']
    cases hl : leafText node.node with
    | nil => simp [sliceFrom1]
    | cons c p =>
      by_cases hc : c = ':'
      · simp [sliceFrom1, HasPrefix, hc]
      · have hc2 : ¬ ':' = c := fun e => hc e.symm
        simp [sliceFrom1, HasPrefix, hc, hc2]
  · simp [h]

theorem makedownWalker_leave (st : WalkerState) (node : NodeRef) :
    makedownWalker st node false = some (st, WalkStatus.GoToNext) := by
  simp [makedownWalker]

theorem makedownWalker_enter (st : WalkerState) (node : NodeRef) :
    makedownWalker st node true =
      (visitOut node).map fun a =>
        (⟨st.buff ++ a.1, st.targets ++ a.2, st.fmterr⟩, WalkStatus.GoToNext) := by
  unfold visitOut makedownWalker
  simp only [if_true]
  cases isBlockQuoteWithColon node with
  | none => simp
  | some r =>
    obtain ⟨b, target, quotes⟩ := r
    obtain ⟨cb, first, target2, recipes⟩ := isCodeBlockUnderHeadingWithColon node
    cases b <;> cases cb <;> cases first <;> simp <;> split <;> simp

mutual
theorem walkNode_makedownWalker (prevs : List Node) :
    ∀ (n : Node) (st : WalkerState),
      walkNode makedownWalker prevs n st = (emitNode prevs n).map fun a => (st.add a, false)
  | .mk ty lit cs, st => by
    rw [walkNode, emitNode, makedownWalker_enter]
    cases visitOut ⟨prevs, .mk ty lit cs⟩ with
    | none => simp
    | some a =>
      by_cases h : ty.isContainer = true
      · simp only [Option.map_some', h, if_true, walkChildren_makedownWalker [] cs]
        cases emitChildren [] cs with
        | none => simp
        | some b => simp [makedownWalker_leave, WalkerState.add, List.append_assoc]
      · simp [h, WalkerState.add]
theorem walkChildren_makedownWalker (prevs : List Node) :
    ∀ (cs : List Node) (st : WalkerState),
      walkChildren makedownWalker prevs cs st =
        (emitChildren prevs cs).map fun a => (st.add a, false)
  | [], st => by simp [walkChildren, emitChildren, WalkerState.add]
  | c :: rest, st => by
    rw [walkChildren, walkNode_makedownWalker prevs c st, emitChildren]
    cases emitNode prevs c with
    | none => simp
    | some a =>
      simp only [Option.map_some', walkChildren_makedownWalker (c :: prevs) rest]
      cases emitChildren (c :: prevs) rest with
      | none => simp
      | some b => simp [WalkerState.add, List.append_assoc]
end

/-- The conversion in closed form: the footer follows what the walk wrote, and
the error is nil. -/
theorem GenerateMakefileFromMarkdown_eq (wide : Nat → Bool) (name : GoString) (n : Node) :
    GenerateMakefileFromMarkdown wide name n =
      (emitNode [] n).map fun a => (some (a.1 ++ footer wide name), a.2, none) := by
  unfold GenerateMakefileFromMarkdown NodeRef.Walk
  rw [walkNode_makedownWalker]
  cases emitNode [] n with
  | none => simp
  | some a => simp [WalkerState.add]

/-! ## Single visits -/

theorem HasSuffix_colon_iff (s : Text) : HasSuffix s [':'] = true ↔ s.getLast? = some ':' := by
  unfold HasSuffix
  rw [List.isSuffixOf_iff_suffix, List.getLast?_eq_some_iff]
  constructor
  · rintro ⟨u, hu⟩
    exact ⟨u, hu.symm⟩
  · rintro ⟨u, hu⟩
    exact ⟨u, hu.symm⟩

/-- A node that is neither a block quote nor a code block is passed without
output. -/
theorem visitOut_other (prevs : List Node) (n : Node)
    (hb : n.type ≠ NodeType.BlockQuote) (hc : n.type ≠ NodeType.CodeBlock) :
    visitOut ⟨prevs, n⟩ = some ([], []) := by
  unfold visitOut makedownWalker
  simp [isBlockQuoteWithColon_eq, isCodeBlockUnderHeadingWithColon, hb, hc]

theorem isHeadingWithColon_mkHeading (prevs : List Node) (t : Text)
    (ht : t.getLast? = some ':') :
    isHeadingWithColon ⟨prevs, mkHeading t⟩ = (true, t) := by
  have h := (HasSuffix_colon_iff t).2 ht
  simp [isHeadingWithColon, mkHeading, mkText, Node.type, Node.LastChild, Node.children,
    Node.literal, h]

theorem findSiblingWithTypeLoop_codeBlocks (pre : List Text) (t : Text) :
    findSiblingWithTypeLoop NodeType.Heading (pre.map mkCodeBlock ++ [mkHeading t]) =
      (true, some ⟨[], mkHeading t⟩) := by
  induction pre with
  | nil => simp [findSiblingWithTypeLoop, mkHeading, Node.type]
  | cons r pre ih =>
    simpa [findSiblingWithTypeLoop, mkCodeBlock, Node.type] using ih

theorem findSiblingHeadingWithColon_codeBlocks (pre : List Text) (t : Text) (n : Node)
    (ht : t.getLast? = some ':') :
    findSiblingHeadingWithColon ⟨pre.map mkCodeBlock ++ [mkHeading t], n⟩ = (true, t) := by
  simp [findSiblingHeadingWithColon, findSiblingWithType, findSiblingWithTypeLoop_codeBlocks,
    isHeadingWithColon_mkHeading _ t ht]

theorem findSiblingWithTypeBefore_codeBlocks (pre : List Text) (t : Text) (n : Node) :
    (findSiblingWithTypeBefore ⟨pre.map mkCodeBlock ++ [mkHeading t], n⟩
      NodeType.CodeBlock NodeType.Heading).1 = !pre.isEmpty := by
  cases pre with
  | nil => simp [findSiblingWithTypeBefore, findSiblingWithTypeBeforeLoop, mkHeading, Node.type]
  | cons r pre =>
    simp [findSiblingWithTypeBefore, findSiblingWithTypeBeforeLoop, mkCodeBlock, Node.type]

/-- The visit of a code block, in closed form. -/
theorem visitOut_codeBlock (prevs : List Node) (n : Node) (hc : n.type = NodeType.CodeBlock) :
    visitOut ⟨prevs, n⟩ =
      some (if (findSiblingHeadingWithColon ⟨prevs, n⟩).1 = true then
          if (findSiblingHeadingWithColon ⟨prevs, n⟩).2 = "variables:".toList ∨
              (findSiblingHeadingWithColon ⟨prevs, n⟩).2 = "makedown:".toList then
            (n.literal ++ ['\n'], [])
          else if (findSiblingWithTypeBefore ⟨prevs, n⟩ NodeType.CodeBlock NodeType.Heading).1
              = true then
            (addIndents n.literal, [])
          else
            ((findSiblingHeadingWithColon ⟨prevs, n⟩).2 ++ ['\n'] ++ addIndents n.literal,
              [(findSiblingHeadingWithColon ⟨prevs, n⟩).2])
        else ([], [])) := by
  have hb : n.type ≠ NodeType.BlockQuote := by rw [hc]; decide
  have hbq : isBlockQuoteWithColon ⟨prevs, n⟩ = some (false, [], []) := by
    rw [isBlockQuoteWithColon_eq, if_neg hb]
  unfold visitOut makedownWalker
  simp only [hbq, isCodeBlockUnderHeadingWithColon, hc, if_true, if_false]
  rcases hf : findSiblingHeadingWithColon ⟨prevs, n⟩ with ⟨found, target⟩
  cases found
  · simp
  · simp only [if_true]
    by_cases hres : target = "variables:".toList ∨ target = "makedown:".toList
    · rw [if_pos hres, if_pos hres]
      simp
    · rw [if_neg hres, if_neg hres]
      cases (findSiblingWithTypeBefore ⟨prevs, n⟩ NodeType.CodeBlock NodeType.Heading).1 <;> simp

/-- The visit of a code block that follows a target heading and `pre` earlier
code blocks. -/
theorem visitOut_codeBlock_target (pre : List Text) (t r : Text)
    (ht : t.getLast? = some ':')
    (hv : t ≠ "variables:".toList) (hm : t ≠ "makedown:".toList) :
    visitOut ⟨pre.map mkCodeBlock ++ [mkHeading t], mkCodeBlock r⟩ =
      some (if pre.isEmpty then t ++ ['\n'] ++ addIndents r else addIndents r,
        if pre.isEmpty then [t] else []) := by
  have h1 := findSiblingHeadingWithColon_codeBlocks pre t (mkCodeBlock r) ht
  have h2 := findSiblingWithTypeBefore_codeBlocks pre t (mkCodeBlock r)
  have hres : ¬ (t = "variables:".toList ∨ t = "makedown:".toList) := by
    rintro (h | h)
    · exact hv h
    · exact hm h
  rw [visitOut_codeBlock _ _ (by simp [mkCodeBlock, Node.type]), h1, h2]
  simp only [if_true, if_neg hres]
  cases pre <;> simp [mkCodeBlock, Node.literal]

/-- The visit of a code block that follows a reserved heading. -/
theorem visitOut_codeBlock_reserved (pre : List Text) (t r : Text)
    (ht : t = "variables:".toList ∨ t = "makedown:".toList) :
    visitOut ⟨pre.map mkCodeBlock ++ [mkHeading t], mkCodeBlock r⟩ = some (r ++ ['\n'], []) := by
  have hcolon : t.getLast? = some ':' := by
    rcases ht with h | h <;> subst h <;> rfl
  have h1 := findSiblingHeadingWithColon_codeBlocks pre t (mkCodeBlock r) hcolon
  rw [visitOut_codeBlock _ _ (by simp [mkCodeBlock, Node.type]), h1]
  simp only [if_true, if_pos ht]
  simp [mkCodeBlock, Node.literal]

/-- A heading with a single text child is passed without output. -/
theorem emitNode_mkHeading (prevs : List Node) (t : Text) :
    emitNode prevs (mkHeading t) = some ([], []) := by
  have h1 : visitOut ⟨prevs, mkHeading t⟩ = some ([], []) :=
    visitOut_other prevs _ (by simp [mkHeading, Node.type]) (by simp [mkHeading, Node.type])
  have h2 : visitOut ⟨[], mkText t⟩ = some ([], []) :=
    visitOut_other [] _ (by simp [mkText, Node.type]) (by simp [mkText, Node.type])
  simp only [mkHeading, mkText] at h1 h2 ⊢
  simp [emitNode, emitChildren, h1, h2, NodeType.isContainer]

/-! ## A target heading followed by code blocks -/

/-- The code blocks after a target heading: the first one writes the target
line and records the target, every one writes its indented recipes. -/
theorem emitChildren_codeBlocks_target (t : Text) (ht : t.getLast? = some ':')
    (hv : t ≠ "variables:".toList) (hm : t ≠ "makedown:".toList) :
    ∀ (rs pre : List Text),
      emitChildren (pre.map mkCodeBlock ++ [mkHeading t]) (rs.map mkCodeBlock) =
        some ((if pre.isEmpty ∧ rs ≠ [] then t ++ ['\n'] else []) ++ (rs.map addIndents).flatten,
          if pre.isEmpty ∧ rs ≠ [] then [t] else [])
  | [], pre => by simp [emitChildren]
  | r :: rs, pre => by
    have hv1 := visitOut_codeBlock_target pre t r ht hv hm
    have ih := emitChildren_codeBlocks_target t ht hv hm rs (r :: pre)
    simp only [List.map_cons, List.cons_append] at ih ⊢
    rw [emitChildren, ih]
    simp only [mkCodeBlock] at hv1 ⊢
    rw [emitNode, hv1]
    cases pre <;> simp [NodeType.isContainer]

/-- The code blocks after a reserved heading are written verbatim. -/
theorem emitChildren_codeBlocks_reserved (t : Text)
    (ht : t = "variables:".toList ∨ t = "makedown:".toList) :
    ∀ (rs pre : List Text),
      emitChildren (pre.map mkCodeBlock ++ [mkHeading t]) (rs.map mkCodeBlock) =
        some ((rs.map fun r => r ++ ['\n']).flatten, [])
  | [], pre => by simp [emitChildren]
  | r :: rs, pre => by
    have hv1 := visitOut_codeBlock_reserved pre t r ht
    have ih := emitChildren_codeBlocks_reserved t ht rs (r :: pre)
    simp only [List.map_cons, List.cons_append] at ih ⊢
    rw [emitChildren, ih]
    simp only [mkCodeBlock] at hv1 ⊢
    rw [emitNode, hv1]
    simp [NodeType.isContainer]

/-- The root of a document is passed without output, whatever precedes. -/
theorem emitNode_mkDocument (cs : List Node) :
    emitNode [] (mkDocument cs) = emitChildren [] cs := by
  have h1 : visitOut ⟨[], mkDocument cs⟩ = some ([], []) :=
    visitOut_other [] _ (by simp [mkDocument, Node.type]) (by simp [mkDocument, Node.type])
  simp only [mkDocument] at h1 ⊢
  rw [emitNode, h1]
  cases emitChildren [] cs <;> simp [NodeType.isContainer]

/-- C1: a heading whose single text child is a target name `t` (ending in a
colon, not reserved) followed by one or more code blocks converts to the target
line, written once before the first block, then the indented recipes of every
block, then the footer; the target list is `[t]`. -/
theorem C1_target_with_code_blocks (wide : Nat → Bool) (name : GoString) (t r1 : Text) (rs : List Text)
    (ht : t.getLast? = some ':')
    (hv : t ≠ "variables:".toList) (hm : t ≠ "makedown:".toList) :
    GenerateMakefileFromMarkdown wide name
        (mkDocument (mkHeading t :: (r1 :: rs).map mkCodeBlock)) =
      some (some (t ++ ['\n'] ++ ((r1 :: rs).map addIndents).flatten ++ footer wide name),
        [t], none) := by
  have h := emitChildren_codeBlocks_target t ht hv hm (r1 :: rs) []
  simp only [List.map_nil, List.nil_append] at h
  rw [GenerateMakefileFromMarkdown_eq, emitNode_mkDocument, emitChildren, emitNode_mkHeading, h]
  simp

/-- C1 at the heading `Build:` with the recipes `echo hi` and `echo bye`. -/
theorem C1_target_with_code_blocks_witness :
    GenerateMakefileFromMarkdown (fun _ => false) (GoString.ofText "Makefile.md".toList)
        (mkDocument [mkHeading "Build:".toList, mkCodeBlock "echo hi\necho bye\n".toList]) =
      some (some ("Build:\n\techo hi\n\techo bye\n\t\n".toList
        ++ footer (fun _ => false) (GoString.ofText "Makefile.md".toList)), ["Build:".toList], none) :=
  C1_target_with_code_blocks (fun _ => false) (GoString.ofText "Makefile.md".toList) "Build:".toList
    "echo hi\necho bye\n".toList [] (by decide) (by decide) (by decide)

/-! ## A target heading followed by a block quote -/

/-- The visit of a block quote, in closed form: the run does not return when
the leaves below the block quote hold no text. -/
theorem visitOut_blockQuote (prevs : List Node) (n : Node)
    (hb : n.type = NodeType.BlockQuote) :
    visitOut ⟨prevs, n⟩ =
      match leafText n with
      | [] => none
      | c :: p =>
        some (if c = ':' ∧ (findSiblingHeadingWithColon ⟨prevs, n⟩).1 = true then
            ((findSiblingHeadingWithColon ⟨prevs, n⟩).2 ++ p ++ ['\n'], [])
          else ([], [])) := by
  have hc : n.type ≠ NodeType.CodeBlock := by rw [hb]; decide
  have hcb : isCodeBlockUnderHeadingWithColon ⟨prevs, n⟩ = (false, false, [], []) := by
    simp [isCodeBlockUnderHeadingWithColon, hc]
  unfold visitOut makedownWalker
  simp only [isBlockQuoteWithColon_eq, hcb, hb, if_true]
  cases leafText n with
  | nil => simp
  | cons c p =>
    by_cases h1 : c = ':'
    · cases h2 : (findSiblingHeadingWithColon ⟨prevs, n⟩).1 <;> simp [h1, h2]
    · simp [h1]

mutual
theorem emitNode_noBlocks (prevs : List Node) :
    ∀ (n : Node), noBlocks n = true → emitNode prevs n = some ([], [])
  | .mk ty lit cs, h => by
    simp only [noBlocks, Bool.and_eq_true, decide_eq_true_eq] at h
    have h1 : visitOut ⟨prevs, .mk ty lit cs⟩ = some ([], []) :=
      visitOut_other prevs _ h.1.1 h.1.2
    rw [emitNode, h1, emitChildren_noBlocks [] cs h.2]
    simp
theorem emitChildren_noBlocks (prevs : List Node) :
    ∀ (cs : List Node), noBlocksList cs = true → emitChildren prevs cs = some ([], [])
  | [], _ => by simp [emitChildren]
  | c :: rest, h => by
    simp only [noBlocksList, Bool.and_eq_true] at h
    rw [emitChildren, emitNode_noBlocks prevs c h.1, emitChildren_noBlocks (c :: prevs) rest h.2]
    simp
end

/-- C2 as stated fails: below the heading `Build:`, a block quote whose leaves
concatenate to `: a.c` followed by `x:` and `r` holds a heading and a code block
of its own, and the walk, which goes on below the block quote, writes the
nested target too and records it. -/
theorem C2_counterexample :
    leafTextList [mkParagraph ": a.c".toList, mkHeading "x:".toList, mkCodeBlock "r".toList]
        = ':' :: " a.cx:r".toList ∧
      GenerateMakefileFromMarkdown (fun _ => false) (GoString.ofText "m.md".toList)
        (mkDocument [mkHeading "Build:".toList,
          mkBlockQuote [mkParagraph ": a.c".toList, mkHeading "x:".toList,
            mkCodeBlock "r".toList]]) =
        some (some ("Build: a.cx:r\nx:\n\tr\n".toList ++ footer (fun _ => false) (GoString.ofText "m.md".toList)),
          ["x:".toList], none) ∧
      GenerateMakefileFromMarkdown (fun _ => false) (GoString.ofText "m.md".toList)
        (mkDocument [mkHeading "Build:".toList,
          mkBlockQuote [mkParagraph ": a.c".toList, mkHeading "x:".toList,
            mkCodeBlock "r".toList]]) ≠
        some (some ("Build:".toList ++ " a.cx:r".toList ++ ['\n']
          ++ footer (fun _ => false) (GoString.ofText "m.md".toList)), [], none) := by
  decide

/-- C2, amended: a heading whose single text child `t` ends in a colon,
followed by a block quote that holds no block quote and no code block below it
and whose leaves concatenate to a colon followed by `p`, converts to the line
`t ++ p`, then the footer; the target list is empty. -/
theorem C2_target_with_block_quote (wide : Nat → Bool) (name : GoString) (t p : Text) (cs : List Node)
    (ht : t.getLast? = some ':') (hq : noBlocksList cs = true)
    (hp : leafTextList cs = ':' :: p) :
    GenerateMakefileFromMarkdown wide name (mkDocument [mkHeading t, mkBlockQuote cs]) =
      some (some (t ++ p ++ ['\n'] ++ footer wide name), [], none) := by
  have h1 := findSiblingHeadingWithColon_codeBlocks [] t (mkBlockQuote cs) ht
  simp only [List.map_nil, List.nil_append] at h1
  have h2 : leafText (mkBlockQuote cs) = ':' :: p := by
    simp [mkBlockQuote, leafText, NodeType.isContainer, hp]
  have h3 : visitOut ⟨[mkHeading t], mkBlockQuote cs⟩ = some (t ++ p ++ ['\n'], []) := by
    rw [visitOut_blockQuote _ _ (by simp [mkBlockQuote, Node.type]), h2, h1]
    simp
  have h4 : emitNode [mkHeading t] (mkBlockQuote cs) = some (t ++ p ++ ['\n'], []) := by
    simp only [mkBlockQuote] at h3 ⊢
    rw [emitNode, h3, emitChildren_noBlocks [] cs hq]
    simp [NodeType.isContainer]
  rw [GenerateMakefileFromMarkdown_eq, emitNode_mkDocument, emitChildren, emitNode_mkHeading,
    emitChildren, h4, emitChildren]
  simp

/-- C2 (amended) at the heading `Build:` with a block quote of text
`: a.c b.c`: the line is `Build: a.c b.c`. -/
theorem C2_target_with_block_quote_witness :
    GenerateMakefileFromMarkdown (fun _ => false) (GoString.ofText "Makefile.md".toList)
        (mkDocument [mkHeading "Build:".toList, mkBlockQuote [mkParagraph ": a.c b.c".toList]]) =
      some (some ("Build: a.c b.c\n".toList ++ footer (fun _ => false) (GoString.ofText "Makefile.md".toList)),
        [], none) :=
  C2_target_with_block_quote (fun _ => false) (GoString.ofText "Makefile.md".toList) "Build:".toList
    " a.c b.c".toList [mkParagraph ": a.c b.c".toList] (by decide) (by decide) (by decide)

/-! ## A reserved heading followed by code blocks -/

/-- C3: a reserved heading (`variables:` or `makedown:`) followed by one or
more code blocks converts to the raw text of every block, each followed by a
line feed, with no tab and no target line, then the footer; the target list is
empty. -/
theorem C3_reserved_with_code_blocks (wide : Nat → Bool) (name : GoString) (t r1 : Text) (rs : List Text)
    (ht : t = "variables:".toList ∨ t = "makedown:".toList) :
    GenerateMakefileFromMarkdown wide name
        (mkDocument (mkHeading t :: (r1 :: rs).map mkCodeBlock)) =
      some (some (((r1 :: rs).map fun r => r ++ ['\n']).flatten ++ footer wide name),
        [], none) := by
  have h := emitChildren_codeBlocks_reserved t ht (r1 :: rs) []
  simp only [List.map_nil, List.nil_append] at h
  rw [GenerateMakefileFromMarkdown_eq, emitNode_mkDocument, emitChildren, emitNode_mkHeading, h]
  simp

/-- C3 at the heading `variables:` with the code block `CC=gcc`. -/
theorem C3_reserved_with_code_blocks_witness :
    GenerateMakefileFromMarkdown (fun _ => false) (GoString.ofText "Makefile.md".toList)
        (mkDocument [mkHeading "variables:".toList, mkCodeBlock "CC=gcc\n".toList]) =
      some (some ("CC=gcc\n\n".toList ++ footer (fun _ => false) (GoString.ofText "Makefile.md".toList)),
        [], none) :=
  C3_reserved_with_code_blocks (fun _ => false) (GoString.ofText "Makefile.md".toList) "variables:".toList
    "CC=gcc\n".toList [] (Or.inl rfl)

/-! ## The target list -/

theorem isHeadingWithColon_prevs (ps qs : List Node) (n : Node) :
    isHeadingWithColon ⟨ps, n⟩ = isHeadingWithColon ⟨qs, n⟩ := by
  simp [isHeadingWithColon]

/-- The target a code block is recorded for, from the two sibling searches of
`isCodeBlockUnderHeadingWithColon`. -/
theorem openTarget_eq (n : Node) :
    ∀ (prevs : List Node),
      openTarget prevs =
        if (findSiblingHeadingWithColon ⟨prevs, n⟩).1 = true ∧
            ¬ ((findSiblingHeadingWithColon ⟨prevs, n⟩).2 = "variables:".toList ∨
              (findSiblingHeadingWithColon ⟨prevs, n⟩).2 = "makedown:".toList) ∧
            (findSiblingWithTypeBefore ⟨prevs, n⟩ NodeType.CodeBlock NodeType.Heading).1
              = false then
          some (findSiblingHeadingWithColon ⟨prevs, n⟩).2
        else none
  | [] => by
    simp [openTarget, findSiblingHeadingWithColon, findSiblingWithType, findSiblingWithTypeLoop]
  | p :: ps => by
    have ih := openTarget_eq n ps
    by_cases hh : p.type = NodeType.Heading
    · have e1 : findSiblingHeadingWithColon ⟨p :: ps, n⟩ =
          (if (isHeadingWithColon ⟨[], p⟩).1 = true then (true, (isHeadingWithColon ⟨[], p⟩).2)
            else (false, [])) := by
        simp only [findSiblingHeadingWithColon, findSiblingWithType, findSiblingWithTypeLoop, hh,
          if_true]
        rw [isHeadingWithColon_prevs ps [] p]
        rcases isHeadingWithColon ⟨[], p⟩ with ⟨b, t⟩
        cases b <;> simp
      have e2 : (findSiblingWithTypeBefore ⟨p :: ps, n⟩ NodeType.CodeBlock NodeType.Heading).1
          = false := by
        simp [findSiblingWithTypeBefore, findSiblingWithTypeBeforeLoop, hh]
      rw [e1, e2]
      simp only [openTarget, hh, if_true, targetName]
      by_cases hb : (isHeadingWithColon ⟨[], p⟩).1 = true
      · simp only [hb, if_true, true_and, and_true, not_or]
      · simp [hb]
    · have e1 : findSiblingHeadingWithColon ⟨p :: ps, n⟩ = findSiblingHeadingWithColon ⟨ps, n⟩ := by
        simp [findSiblingHeadingWithColon, findSiblingWithType, findSiblingWithTypeLoop, hh]
      by_cases hc : p.type = NodeType.CodeBlock
      · have e2 : (findSiblingWithTypeBefore ⟨p :: ps, n⟩ NodeType.CodeBlock NodeType.Heading).1
            = true := by
          simp [findSiblingWithTypeBefore, findSiblingWithTypeBeforeLoop, hh, hc]
        rw [e2]
        simp [openTarget, hh, hc]
      · have e2 : findSiblingWithTypeBefore ⟨p :: ps, n⟩ NodeType.CodeBlock NodeType.Heading
            = findSiblingWithTypeBefore ⟨ps, n⟩ NodeType.CodeBlock NodeType.Heading := by
          simp [findSiblingWithTypeBefore, findSiblingWithTypeBeforeLoop, hh, hc]
        rw [e1, e2, ← ih]
        simp [openTarget, hh, hc]

/-- The targets a visit records, when the visit returns. -/
theorem visitOut_targets (prevs : List Node) (n : Node) (a : Text × List Text)
    (h : visitOut ⟨prevs, n⟩ = some a) : a.2 = recordedBy prevs n := by
  by_cases hc : n.type = NodeType.CodeBlock
  · rw [visitOut_codeBlock prevs n hc] at h
    simp only [recordedBy, hc, if_true, openTarget_eq n prevs]
    injection h with h
    subst h
    by_cases h1 : (findSiblingHeadingWithColon ⟨prevs, n⟩).1 = true
    · by_cases h2 : (findSiblingHeadingWithColon ⟨prevs, n⟩).2 = "variables:".toList ∨
          (findSiblingHeadingWithColon ⟨prevs, n⟩).2 = "makedown:".toList
      · simp only [h1, if_true, if_pos h2, true_and]
        rw [if_neg (fun h => h.1 h2)]
        rfl
      · simp only [h1, if_true, if_neg h2, true_and]
        cases hb : (findSiblingWithTypeBefore ⟨prevs, n⟩ NodeType.CodeBlock NodeType.Heading).1
        · have e : ¬ (false = true) := by decide
          rw [if_neg e, if_pos ⟨h2, rfl⟩]
          rfl
        · have e : ¬ (¬ ((findSiblingHeadingWithColon ⟨prevs, n⟩).2 = "variables:".toList ∨
              (findSiblingHeadingWithColon ⟨prevs, n⟩).2 = "makedown:".toList) ∧ true = false) :=
            fun h => Bool.noConfusion h.2
          rw [if_pos rfl, if_neg e]
          rfl
    · simp [h1]
  · simp only [recordedBy, hc, if_false]
    by_cases hb : n.type = NodeType.BlockQuote
    · rw [visitOut_blockQuote prevs n hb] at h
      cases hl : leafText n with
      | nil => simp [hl] at h
      | cons c p =>
        simp only [hl] at h
        injection h with h
        subst h
        split <;> rfl
    · rw [visitOut_other prevs n hb hc] at h
      injection h with h
      subst h
      rfl

mutual
theorem emitNode_targets (prevs : List Node) :
    ∀ (n : Node) (a : Text × List Text), emitNode prevs n = some a → a.2 = targetsNode prevs n
  | .mk ty lit cs, a, h => by
    rw [emitNode] at h
    rw [targetsNode]
    cases hv : visitOut ⟨prevs, .mk ty lit cs⟩ with
    | none => simp [hv] at h
    | some v =>
      have h1 := visitOut_targets prevs _ v hv
      simp only [hv] at h
      by_cases hk : ty.isContainer = true
      · simp only [hk, if_true] at h ⊢
        cases hc : emitChildren [] cs with
        | none => simp [hc] at h
        | some b =>
          have h2 := emitChildren_targets [] cs b hc
          simp only [hc] at h
          injection h with h
          subst h
          simp [h1, h2]
      · simp only [hk] at h ⊢
        injection h with h
        subst h
        simp [h1]
theorem emitChildren_targets (prevs : List Node) :
    ∀ (cs : List Node) (a : Text × List Text),
      emitChildren prevs cs = some a → a.2 = targetsChildren prevs cs
  | [], a, h => by
    simp only [emitChildren] at h
    injection h with h
    subst h
    rfl
  | c :: rest, a, h => by
    rw [emitChildren] at h
    rw [targetsChildren]
    cases h1 : emitNode prevs c with
    | none => simp [h1] at h
    | some v =>
      cases h2 : emitChildren (c :: prevs) rest with
      | none => simp [h1, h2] at h
      | some b =>
        simp only [h1, h2] at h
        injection h with h
        subst h
        simp [emitNode_targets prevs c v h1, emitChildren_targets (c :: prevs) rest b h2]
end

/-- The target list of a conversion that returns. -/
theorem GenerateMakefileFromMarkdown_targets (wide : Nat → Bool) (name : GoString) (n : Node)
    (out : Option Text) (ts : List Text) (err : Option GoError)
    (h : GenerateMakefileFromMarkdown wide name n = some (out, ts, err)) :
    ts = targetsNode [] n := by
  rw [GenerateMakefileFromMarkdown_eq] at h
  cases he : emitNode [] n with
  | none => simp [he] at h
  | some a =>
    simp only [he, Option.map_some', Option.some.injEq, Prod.mk.injEq] at h
    rw [← h.2.1]
    exact emitNode_targets [] n a he

theorem targetName_of_not_heading (n : Node) (h : n.type ≠ NodeType.Heading) :
    targetName n = none := by
  simp [targetName, isHeadingWithColon, h]

theorem perm_swap_middle {S H T g G : List Text} (hS : S.Perm H) (hT : T.Perm (g ++ G)) :
    (S ++ T).Perm (g ++ (H ++ G)) :=
  (hS.append hT).trans (List.perm_append_comm_assoc H g G)

mutual
/-- Below a node the recorded targets are, up to their order, the names of the
governing headings below it. -/
theorem targetsBelow_perm :
    ∀ (n : Node), WellFormed n = true →
      (if n.type.isContainer = true then targetsChildren [] n.children else []).Perm
        (governingHeadings n)
  | .mk ty lit cs, h => by
    simp only [WellFormed, Bool.and_eq_true, Bool.or_eq_true] at h
    simp only [Node.type, Node.children, governingHeadings]
    by_cases hk : ty.isContainer = true
    · have hp := targetsChildren_perm cs [] h.2
      simpa [hk, pendingTarget, openTarget] using hp
    · have hcs : cs = [] := by
        rcases h.1 with h1 | h1
        · exact absurd h1 hk
        · simpa using h1
      subst hcs
      simp [governingHeadingsList, targetsChildren]
/-- Over a list of siblings the recorded targets are, up to their order, the
entry pending from the earlier siblings and the names of the governing
headings of the list. -/
theorem targetsChildren_perm :
    ∀ (cs prevs : List Node), WellFormedList cs = true →
      (targetsChildren prevs cs).Perm (pendingTarget prevs cs ++ governingHeadingsList cs)
  | [], prevs, _ => by
    simp [targetsChildren, pendingTarget, codeBlockFollows, governingHeadingsList]
  | c :: rest, prevs, h => by
    simp only [WellFormedList, Bool.and_eq_true] at h
    have ih := targetsChildren_perm rest (c :: prevs) h.2
    have hsub := targetsBelow_perm c h.1
    have hnode : targetsNode prevs c =
        recordedBy prevs c ++
          (if c.type.isContainer = true then targetsChildren [] c.children else []) := by
      cases c with
      | mk ty lit cs => simp [targetsNode, Node.type, Node.children]
    rw [targetsChildren, governingHeadingsList, hnode]
    by_cases hh : c.type = NodeType.Heading
    · have hc : c.type ≠ NodeType.CodeBlock := by rw [hh]; decide
      have e1 : recordedBy prevs c = [] := by simp [recordedBy, hc]
      have e2 : pendingTarget prevs (c :: rest) = [] := by
        simp [pendingTarget, codeBlockFollows, hh]
      have e3 : pendingTarget (c :: prevs) rest = governedName c rest := by
        simp [pendingTarget, governedName, openTarget, hh]
      rw [e1, e2, List.nil_append, List.nil_append, List.append_assoc]
      rw [e3] at ih
      exact perm_swap_middle hsub ih
    · have hg : governedName c rest = [] := by
        simp [governedName, targetName_of_not_heading c hh]
      by_cases hc : c.type = NodeType.CodeBlock
      · have e1 : recordedBy prevs c = (openTarget prevs).toList := by simp [recordedBy, hc]
        have e2 : pendingTarget prevs (c :: rest) = (openTarget prevs).toList := by
          simp [pendingTarget, codeBlockFollows, hc]
        have e3 : pendingTarget (c :: prevs) rest = [] := by
          simp [pendingTarget, openTarget, hc]
        have e4 : (if c.type.isContainer = true then targetsChildren [] c.children else [])
            = [] := by
          simp [hc, NodeType.isContainer]
        rw [e4] at hsub
        rw [e1, e2, e4, hg, List.perm_nil.1 hsub.symm]
        rw [e3] at ih
        simpa using ih.append_left (openTarget prevs).toList
      · have e1 : recordedBy prevs c = [] := by simp [recordedBy, hc]
        have e2 : pendingTarget (c :: prevs) rest = pendingTarget prevs (c :: rest) := by
          simp [pendingTarget, codeBlockFollows, openTarget, hh, hc]
        rw [e1, hg, List.nil_append, List.nil_append]
        rw [e2] at ih
        exact perm_swap_middle hsub ih
end

/-- The recorded targets of a tree are, up to their order, the names of its
governing headings, one entry per heading occurrence. -/
theorem targetsNode_perm (n : Node) (h : WellFormed n = true) :
    (targetsNode [] n).Perm (governingHeadings n) := by
  have hp := targetsBelow_perm n h
  cases n with
  | mk ty lit cs =>
    simpa [targetsNode, recordedBy, openTarget, Node.type, Node.children] using hp

/-! ## Documents without a target heading -/

theorem findSiblingHeadingWithColon_none (n : Node) :
    ∀ (prevs : List Node), (∀ p ∈ prevs, (isHeadingWithColon ⟨[], p⟩).1 = false) →
      (findSiblingHeadingWithColon ⟨prevs, n⟩).1 = false
  | [], _ => by
    simp [findSiblingHeadingWithColon, findSiblingWithType, findSiblingWithTypeLoop]
  | p :: ps, h => by
    have ih := findSiblingHeadingWithColon_none n ps (fun q hq => h q (List.mem_cons_of_mem p hq))
    have hp := h p (List.mem_cons_self p ps)
    by_cases hh : p.type = NodeType.Heading
    · simp only [findSiblingHeadingWithColon, findSiblingWithType, findSiblingWithTypeLoop, hh,
        if_true]
      rw [isHeadingWithColon_prevs ps [] p]
      rcases he : isHeadingWithColon ⟨[], p⟩ with ⟨b, t⟩
      rw [he] at hp
      simp only at hp
      subst hp
      rfl
    · simpa [findSiblingHeadingWithColon, findSiblingWithType, findSiblingWithTypeLoop, hh]
        using ih

/-- A visit that returns writes nothing when no earlier sibling is a target
heading. -/
theorem visitOut_no_target (prevs : List Node) (n : Node) (a : Text × List Text)
    (hp : ∀ p ∈ prevs, (isHeadingWithColon ⟨[], p⟩).1 = false)
    (h : visitOut ⟨prevs, n⟩ = some a) : a = ([], []) := by
  have hf := findSiblingHeadingWithColon_none n prevs hp
  by_cases hc : n.type = NodeType.CodeBlock
  · rw [visitOut_codeBlock prevs n hc, hf] at h
    simpa using h.symm
  · by_cases hb : n.type = NodeType.BlockQuote
    · rw [visitOut_blockQuote prevs n hb, hf] at h
      cases hl : leafText n with
      | nil => simp [hl] at h
      | cons c p => simpa [hl] using h.symm
    · rw [visitOut_other prevs n hb hc] at h
      simpa using h.symm

mutual
theorem emitNode_no_target (prevs : List Node) :
    ∀ (n : Node) (a : Text × List Text),
      (∀ p ∈ prevs, (isHeadingWithColon ⟨[], p⟩).1 = false) → noTargetHeading n = true →
      emitNode prevs n = some a → a = ([], [])
  | .mk ty lit cs, a, hp, hn, h => by
    simp only [noTargetHeading, Bool.and_eq_true] at hn
    rw [emitNode] at h
    cases hv : visitOut ⟨prevs, .mk ty lit cs⟩ with
    | none => simp [hv] at h
    | some v =>
      have h1 := visitOut_no_target prevs _ v hp hv
      subst h1
      simp only [hv] at h
      by_cases hk : ty.isContainer = true
      · simp only [hk, if_true] at h
        cases hc : emitChildren [] cs with
        | none => simp [hc] at h
        | some b =>
          have h2 := emitChildren_no_target [] cs b (by simp) hn.2 hc
          subst h2
          simpa [hc] using h.symm
      · simpa [hk] using h.symm
theorem emitChildren_no_target (prevs : List Node) :
    ∀ (cs : List Node) (a : Text × List Text),
      (∀ p ∈ prevs, (isHeadingWithColon ⟨[], p⟩).1 = false) → noTargetHeadingList cs = true →
      emitChildren prevs cs = some a → a = ([], [])
  | [], a, _, _, h => by simpa [emitChildren] using h.symm
  | c :: rest, a, hp, hn, h => by
    simp only [noTargetHeadingList, Bool.and_eq_true] at hn
    rw [emitChildren] at h
    have hc : (isHeadingWithColon ⟨[], c⟩).1 = false := by
      cases c with
      | mk ty lit cs =>
        have := hn.1
        simp only [noTargetHeading, Bool.and_eq_true, Bool.not_eq_true'] at this
        exact this.1
    have hp2 : ∀ p ∈ c :: prevs, (isHeadingWithColon ⟨[], p⟩).1 = false := by
      intro p hpm
      rcases List.mem_cons.1 hpm with e | e
      · rw [e]; exact hc
      · exact hp p e
    cases h1 : emitNode prevs c with
    | none => simp [h1] at h
    | some v =>
      cases h2 : emitChildren (c :: prevs) rest with
      | none => simp [h1, h2] at h
      | some b =>
        have e1 := emitNode_no_target prevs c v hp hn.1 h1
        have e2 := emitChildren_no_target (c :: prevs) rest b hp2 hn.2 h2
        subst e1 e2
        simpa [h1, h2] using h.symm
end

/-- A conversion that returns on a tree without a target heading returns the
footer alone and no target. -/
theorem no_target_heading_output (wide : Nat → Bool) (name : GoString) (n : Node)
    (r : Option Text × List Text × Option GoError)
    (hn : noTargetHeading n = true)
    (h : GenerateMakefileFromMarkdown wide name n = some r) :
    r = (some (footer wide name), [], none) := by
  rw [GenerateMakefileFromMarkdown_eq] at h
  cases he : emitNode [] n with
  | none => simp [he] at h
  | some a =>
    have e := emitNode_no_target [] n a (by simp) hn he
    subst e
    simpa [he] using h.symm

/-- C4 fails on the code: the document that consists of one block quote with
no text below it holds no heading at all, and its conversion does not return
(the slice `prerequisites[1:]` of the logging statement is out of range). -/
theorem C4_empty_block_quote_does_not_return (wide : Nat → Bool) (name : GoString) :
    noTargetHeading (mkDocument [mkBlockQuote []]) = true ∧
      GenerateMakefileFromMarkdown wide name (mkDocument [mkBlockQuote []]) = none := by
  refine ⟨by decide, ?_⟩
  rw [GenerateMakefileFromMarkdown_eq]
  have h : emitNode [] (mkDocument [mkBlockQuote []]) = none := by decide
  rw [h]
  rfl

/-! ## The claims on the target list -/

/-- C5 as stated fails: two headings `a:`, each followed by a code block,
record the target `a:` twice. -/
theorem C5_counterexample :
    GenerateMakefileFromMarkdown (fun _ => false) (GoString.ofText "m.md".toList)
        (mkDocument [mkHeading "a:".toList, mkCodeBlock "x".toList,
          mkHeading "a:".toList, mkCodeBlock "y".toList]) =
      some (some ("a:\n\tx\na:\n\ty\n".toList ++ footer (fun _ => false) (GoString.ofText "m.md".toList)),
        ["a:".toList, "a:".toList], none) ∧
      ¬ ["a:".toList, "a:".toList].Nodup := by
  decide

/-- C5, amended: the target list holds exactly one entry per heading occurrence
that governs a code block (it is a rearrangement of the list of the names of
those heading occurrences), so it is free of repetitions exactly when no two
governing heading occurrences bear the same name. -/
theorem C5_targets_nodup_iff (wide : Nat → Bool) (name : GoString) (n : Node)
    (out : Option Text) (ts : List Text) (err : Option GoError)
    (hw : WellFormed n = true)
    (h : GenerateMakefileFromMarkdown wide name n = some (out, ts, err)) :
    ts.Perm (governingHeadings n) ∧ (ts.Nodup ↔ (governingHeadings n).Nodup) := by
  rw [GenerateMakefileFromMarkdown_targets wide name n out ts err h]
  exact ⟨targetsNode_perm n hw, (targetsNode_perm n hw).nodup_iff⟩

/-- C5 (amended) at a document with the headings `a:` and `b:`, each followed
by a code block, the code block of `a:` standing behind a block quote that
holds the heading `b:`: the entries are those of the two headings, in another
order. -/
theorem C5_targets_nodup_iff_witness :
    ["b:".toList, "a:".toList].Perm
        (governingHeadings (mkDocument [mkHeading "a:".toList,
          mkBlockQuote [mkHeading "b:".toList, mkCodeBlock "y".toList],
          mkCodeBlock "x".toList])) ∧
      (["b:".toList, "a:".toList].Nodup ↔
        (governingHeadings (mkDocument [mkHeading "a:".toList,
          mkBlockQuote [mkHeading "b:".toList, mkCodeBlock "y".toList],
          mkCodeBlock "x".toList])).Nodup) :=
  C5_targets_nodup_iff (fun _ => false) (GoString.ofText "m.md".toList)
    (mkDocument [mkHeading "a:".toList,
      mkBlockQuote [mkHeading "b:".toList, mkCodeBlock "y".toList],
      mkCodeBlock "x".toList])
    (some ("b:\n\ty\na:\n\tx\n".toList ++ footer (fun _ => false) (GoString.ofText "m.md".toList)))
    ["b:".toList, "a:".toList] none (by decide)
    (by rw [GenerateMakefileFromMarkdown_eq]; decide)

mutual
theorem targetsNode_noCodeBlock (prevs : List Node) :
    ∀ (n : Node), noCodeBlock n = true → targetsNode prevs n = []
  | .mk ty lit cs, h => by
    simp only [noCodeBlock, Bool.and_eq_true, decide_eq_true_eq] at h
    simp [targetsNode, recordedBy, Node.type, h.1, targetsChildren_noCodeBlock [] cs h.2]
theorem targetsChildren_noCodeBlock (prevs : List Node) :
    ∀ (cs : List Node), noCodeBlockList cs = true → targetsChildren prevs cs = []
  | [], _ => by simp [targetsChildren]
  | c :: rest, h => by
    simp only [noCodeBlockList, Bool.and_eq_true] at h
    simp [targetsChildren, targetsNode_noCodeBlock prevs c h.1,
      targetsChildren_noCodeBlock (c :: prevs) rest h.2]
end

theorem noCodeBlock_type (c : Node) (h : noCodeBlock c = true) :
    c.type ≠ NodeType.CodeBlock := by
  cases c with
  | mk ty lit cs =>
    simp only [noCodeBlock, Bool.and_eq_true, decide_eq_true_eq] at h
    exact h.1

theorem codeBlockFollows_noCodeBlock :
    ∀ (cs : List Node), noCodeBlockList cs = true → codeBlockFollows cs = false
  | [], _ => by simp [codeBlockFollows]
  | c :: rest, h => by
    simp only [noCodeBlockList, Bool.and_eq_true] at h
    have hc := noCodeBlock_type c h.1
    simp [codeBlockFollows, hc, codeBlockFollows_noCodeBlock rest h.2]

mutual
theorem governingHeadings_noCodeBlock :
    ∀ (n : Node), noCodeBlock n = true → governingHeadings n = []
  | .mk ty lit cs, h => by
    simp only [noCodeBlock, Bool.and_eq_true] at h
    simp [governingHeadings, governingHeadingsList_noCodeBlock cs h.2]
theorem governingHeadingsList_noCodeBlock :
    ∀ (cs : List Node), noCodeBlockList cs = true → governingHeadingsList cs = []
  | [], _ => by simp [governingHeadingsList]
  | c :: rest, h => by
    have hf := codeBlockFollows_noCodeBlock rest (by
      simp only [noCodeBlockList, Bool.and_eq_true] at h
      exact h.2)
    simp only [noCodeBlockList, Bool.and_eq_true] at h
    simp [governingHeadingsList, governedName, hf, governingHeadings_noCodeBlock c h.1,
      governingHeadingsList_noCodeBlock rest h.2]
end

mutual
/-- Below a node that satisfies the order condition, the recorded targets are
the names of the governing headings in document order. -/
theorem targetsBelow_ordered :
    ∀ (n : Node), WellFormed n = true → orderSafe n = true →
      (if n.type.isContainer = true then targetsChildren [] n.children else []) =
        governingHeadings n
  | .mk ty lit cs, h, ho => by
    simp only [WellFormed, Bool.and_eq_true, Bool.or_eq_true] at h
    simp only [orderSafe] at ho
    simp only [Node.type, Node.children, governingHeadings]
    by_cases hk : ty.isContainer = true
    · have hp := targetsChildren_ordered cs [] h.2 ho
      simpa [hk, pendingTarget, openTarget] using hp
    · have hcs : cs = [] := by
        rcases h.1 with h1 | h1
        · exact absurd h1 hk
        · simpa using h1
      subst hcs
      simp [governingHeadingsList, targetsChildren]
/-- Over a list of siblings that satisfies the order condition, the recorded
targets are the entry pending from the earlier siblings, then the names of the
governing headings of the list in document order. -/
theorem targetsChildren_ordered :
    ∀ (cs prevs : List Node), WellFormedList cs = true → orderSafeList prevs cs = true →
      targetsChildren prevs cs = pendingTarget prevs cs ++ governingHeadingsList cs
  | [], prevs, _, _ => by
    simp [targetsChildren, pendingTarget, codeBlockFollows, governingHeadingsList]
  | c :: rest, prevs, h, ho => by
    simp only [WellFormedList, Bool.and_eq_true] at h
    simp only [orderSafeList, Bool.and_eq_true] at ho
    have ih := targetsChildren_ordered rest (c :: prevs) h.2 ho.2
    have hnode : targetsNode prevs c =
        recordedBy prevs c ++
          (if c.type.isContainer = true then targetsChildren [] c.children else []) := by
      cases c with
      | mk ty lit cs => simp [targetsNode, Node.type, Node.children]
    have hsub : (if c.type.isContainer = true then targetsChildren [] c.children else []) =
        governingHeadings c ∧
        (pendingTarget prevs (c :: rest) = [] ∧ governedName c rest = [] ∨
          governingHeadings c = []) := by
      by_cases hq : (pendingTarget prevs (c :: rest)).isEmpty = true ∧
          (governedName c rest).isEmpty = true
      · have e := targetsBelow_ordered c h.1 (by
          have ho1 := ho.1
          rw [if_pos hq] at ho1
          exact ho1)
        simp only [List.isEmpty_iff] at hq
        exact ⟨e, Or.inl hq⟩
      · have hn : noCodeBlockList c.children = true := by
          have ho1 := ho.1
          rw [if_neg hq] at ho1
          exact ho1
        have e1 : governingHeadings c = [] := by
          cases c with
          | mk ty lit cs => simpa [governingHeadings] using governingHeadingsList_noCodeBlock cs hn
        have e2 : targetsChildren [] c.children = [] := targetsChildren_noCodeBlock [] _ hn
        rw [e1, e2]
        simp
    rw [targetsChildren, governingHeadingsList, hnode, hsub.1, ih]
    by_cases hh : c.type = NodeType.Heading
    · have hc : c.type ≠ NodeType.CodeBlock := by rw [hh]; decide
      have e1 : recordedBy prevs c = [] := by simp [recordedBy, hc]
      have e2 : pendingTarget prevs (c :: rest) = [] := by
        simp [pendingTarget, codeBlockFollows, hh]
      have e3 : pendingTarget (c :: prevs) rest = governedName c rest := by
        simp [pendingTarget, governedName, openTarget, hh]
      rw [e1, e2, e3]
      rcases hsub.2 with hz | hz
      · simp [hz.2]
      · simp [hz]
    · have hg : governedName c rest = [] := by
        simp [governedName, targetName_of_not_heading c hh]
      by_cases hc : c.type = NodeType.CodeBlock
      · have e1 : recordedBy prevs c = (openTarget prevs).toList := by simp [recordedBy, hc]
        have e2 : pendingTarget prevs (c :: rest) = (openTarget prevs).toList := by
          simp [pendingTarget, codeBlockFollows, hc]
        have e3 : pendingTarget (c :: prevs) rest = [] := by
          simp [pendingTarget, openTarget, hc]
        have e4 : (if c.type.isContainer = true then targetsChildren [] c.children else [])
            = [] := by
          simp [hc, NodeType.isContainer]
        rw [e1, e2, e3, hg, ← hsub.1, e4]
        simp
      · have e1 : recordedBy prevs c = [] := by simp [recordedBy, hc]
        have e2 : pendingTarget (c :: prevs) rest = pendingTarget prevs (c :: rest) := by
          simp [pendingTarget, codeBlockFollows, openTarget, hh, hc]
        rw [e1, e2, hg]
        rcases hsub.2 with hz | hz
        · simp [hz.1]
        · simp [hz]
end

/-- C6 as stated fails: the heading `a:` comes first in the document, a block
quote with the heading `b:` and its code block follows, and the code block of
`a:` comes last; the walk enters `a:` before `b:`, both headings govern a code
block, and the target list has `b:` before `a:`. -/
theorem C6_counterexample :
    GenerateMakefileFromMarkdown (fun _ => false) (GoString.ofText "m.md".toList)
        (mkDocument [mkHeading "a:".toList,
          mkBlockQuote [mkHeading "b:".toList, mkCodeBlock "y".toList],
          mkCodeBlock "x".toList]) =
      some (some ("b:\n\ty\na:\n\tx\n".toList ++ footer (fun _ => false) (GoString.ofText "m.md".toList)),
        ["b:".toList, "a:".toList], none) ∧
      (enterOrder (mkDocument [mkHeading "a:".toList,
          mkBlockQuote [mkHeading "b:".toList, mkCodeBlock "y".toList],
          mkCodeBlock "x".toList])).filterMap targetName = ["a:".toList, "b:".toList] ∧
      governingHeadings (mkDocument [mkHeading "a:".toList,
          mkBlockQuote [mkHeading "b:".toList, mkCodeBlock "y".toList],
          mkCodeBlock "x".toList]) = ["a:".toList, "b:".toList] := by
  decide

/-- C6, amended: in a document in which no code block lies below a governing
heading, nor below a sibling that stands between a target heading and the first
code block after it (`orderSafe`), the target list is the list of the names of
the governing headings in document (pre-order) order, nested headings and code
blocks included. -/
theorem C6_targets_in_heading_order (wide : Nat → Bool) (name : GoString) (n : Node)
    (out : Option Text) (ts : List Text) (err : Option GoError)
    (hw : WellFormed n = true) (ho : orderSafe n = true)
    (h : GenerateMakefileFromMarkdown wide name n = some (out, ts, err)) :
    ts = governingHeadings n := by
  rw [GenerateMakefileFromMarkdown_targets wide name _ out ts err h]
  have h1 := targetsBelow_ordered n hw ho
  cases n with
  | mk ty lit cs =>
    simpa [targetsNode, recordedBy, openTarget, Node.type, Node.children] using h1

/-- C6 (amended) at a document with the heading `a:` and its code block, a
block quote that holds the heading `b:` and its code block, and the heading
`c:` with its code block. -/
theorem C6_targets_in_heading_order_witness :
    ["a:".toList, "b:".toList, "c:".toList] =
      governingHeadings (mkDocument [mkHeading "a:".toList, mkCodeBlock "x".toList,
        mkBlockQuote [mkHeading "b:".toList, mkCodeBlock "y".toList],
        mkHeading "c:".toList, mkCodeBlock "z".toList]) :=
  C6_targets_in_heading_order (fun _ => false) (GoString.ofText "m.md".toList)
    (mkDocument [mkHeading "a:".toList, mkCodeBlock "x".toList,
      mkBlockQuote [mkHeading "b:".toList, mkCodeBlock "y".toList],
      mkHeading "c:".toList, mkCodeBlock "z".toList])
    (some ("a:\n\tx\nb:\n\ty\nc:\n\tz\n".toList ++ footer (fun _ => false) (GoString.ofText "m.md".toList)))
    ["a:".toList, "b:".toList, "c:".toList] none (by decide) (by decide)
    (by rw [GenerateMakefileFromMarkdown_eq]; decide)

/-- C7: when the conversion returns, the target list has as many entries as
there are heading occurrences that satisfy `isHeadingWithColon` with a name
that is not reserved and that have a code block among their later siblings
with no heading in between (`governingHeadings` lists one name for each such
occurrence, repeated names included). -/
theorem C7_targets_length (wide : Nat → Bool) (name : GoString) (n : Node)
    (out : Option Text) (ts : List Text) (err : Option GoError)
    (hw : WellFormed n = true)
    (h : GenerateMakefileFromMarkdown wide name n = some (out, ts, err)) :
    ts.length = (governingHeadings n).length := by
  rw [GenerateMakefileFromMarkdown_targets wide name n out ts err h]
  exact (targetsNode_perm n hw).length_eq

/-- C7 at a document in which the heading `a:` occurs twice, each time with a
code block, next to a heading without code block and a reserved heading. -/
theorem C7_targets_length_witness :
    ["a:".toList, "a:".toList].length =
      (governingHeadings (mkDocument [mkHeading "a:".toList, mkCodeBlock "x".toList,
        mkCodeBlock "x2".toList, mkHeading "b:".toList, mkHeading "variables:".toList,
        mkCodeBlock "V=1".toList, mkHeading "a:".toList, mkCodeBlock "y".toList])).length :=
  C7_targets_length (fun _ => false) (GoString.ofText "m.md".toList)
    (mkDocument [mkHeading "a:".toList, mkCodeBlock "x".toList,
      mkCodeBlock "x2".toList, mkHeading "b:".toList, mkHeading "variables:".toList,
      mkCodeBlock "V=1".toList, mkHeading "a:".toList, mkCodeBlock "y".toList])
    (some ("a:\n\tx\n\tx2\nV=1\na:\n\ty\n".toList ++ footer (fun _ => false) (GoString.ofText "m.md".toList)))
    ["a:".toList, "a:".toList] none (by decide)
    (by rw [GenerateMakefileFromMarkdown_eq]; decide)

theorem isHeadingWithColon_suffix (x : NodeRef) (h : (isHeadingWithColon x).1 = true) :
    HasSuffix (isHeadingWithColon x).2 [':'] = true := by
  unfold isHeadingWithColon at h ⊢
  by_cases hh : x.node.type = NodeType.Heading
  · simp only [hh, if_true] at h ⊢
    cases hl : x.node.LastChild with
    | none => simp [hl] at h
    | some lw =>
      simp only [hl] at h ⊢
      by_cases hs : HasSuffix lw.literal [':'] = true
      · simp [hs]
      · simp [hs] at h
  · simp [hh] at h

theorem targetName_spec (h : Node) (t : Text) (ht : targetName h = some t) :
    t.getLast? = some ':' ∧ t ≠ "variables:".toList ∧ t ≠ "makedown:".toList := by
  unfold targetName at ht
  split at ht
  · rename_i hc
    injection ht with ht
    subst ht
    refine ⟨?_, hc.2.1, hc.2.2⟩
    rw [← HasSuffix_colon_iff]
    exact isHeadingWithColon_suffix _ hc.1
  · simp at ht

theorem openTarget_spec :
    ∀ (prevs : List Node) (t : Text), openTarget prevs = some t →
      t.getLast? = some ':' ∧ t ≠ "variables:".toList ∧ t ≠ "makedown:".toList
  | [], t, h => by simp [openTarget] at h
  | p :: ps, t, h => by
    unfold openTarget at h
    split at h
    · exact targetName_spec p t h
    · split at h
      · simp at h
      · exact openTarget_spec ps t h

mutual
theorem targetsNode_spec (prevs : List Node) :
    ∀ (n : Node) (t : Text), t ∈ targetsNode prevs n →
      t.getLast? = some ':' ∧ t ≠ "variables:".toList ∧ t ≠ "makedown:".toList
  | .mk ty lit cs, t, h => by
    rw [targetsNode, List.mem_append] at h
    rcases h with h | h
    · unfold recordedBy at h
      split at h
      · exact openTarget_spec prevs t (by simpa [Option.mem_toList] using h)
      · simp at h
    · split at h
      · exact targetsChildren_spec [] cs t h
      · simp at h
theorem targetsChildren_spec (prevs : List Node) :
    ∀ (cs : List Node) (t : Text), t ∈ targetsChildren prevs cs →
      t.getLast? = some ':' ∧ t ≠ "variables:".toList ∧ t ≠ "makedown:".toList
  | [], t, h => by simp [targetsChildren] at h
  | c :: rest, t, h => by
    rw [targetsChildren, List.mem_append] at h
    rcases h with h | h
    · exact targetsNode_spec prevs c t h
    · exact targetsChildren_spec (c :: prevs) rest t h
end

/-- C8: every entry of the target list a conversion returns ends with a colon
and is neither `variables:` nor `makedown:`. -/
theorem C8_targets_end_with_colon_not_reserved (wide : Nat → Bool) (name : GoString) (n : Node)
    (out : Option Text) (ts : List Text) (err : Option GoError)
    (h : GenerateMakefileFromMarkdown wide name n = some (out, ts, err)) :
    ∀ t ∈ ts, t.getLast? = some ':' ∧ t ≠ "variables:".toList ∧ t ≠ "makedown:".toList := by
  intro t ht
  rw [GenerateMakefileFromMarkdown_targets wide name n out ts err h] at ht
  exact targetsNode_spec [] n t ht

/-- C8 at a document with a target heading and the two reserved headings, each
followed by a code block. -/
theorem C8_targets_end_with_colon_not_reserved_witness :
    "all:".toList.getLast? = some ':' ∧ "all:".toList ≠ "variables:".toList ∧
      "all:".toList ≠ "makedown:".toList :=
  C8_targets_end_with_colon_not_reserved (fun _ => false) (GoString.ofText "m.md".toList)
    (mkDocument [mkHeading "variables:".toList, mkCodeBlock "V=1".toList,
      mkHeading "all:".toList, mkCodeBlock "x".toList,
      mkHeading "makedown:".toList, mkCodeBlock "y".toList])
    (some ("V=1\nall:\n\tx\ny\n".toList ++ footer (fun _ => false) (GoString.ofText "m.md".toList)))
    ["all:".toList] none
    (by rw [GenerateMakefileFromMarkdown_eq]; decide)
    "all:".toList (List.mem_singleton.2 rfl)

/-! ## The footer and the error result -/

/-- Characters that `Quote` writes as they are: printable, and neither a double
quote nor a backslash. -/
theorem appendEscapedRune_plain (wide : Nat → Bool) (buf : Text) (c : Char)
    (h : Plain wide c) :
    appendEscapedRune wide buf c = buf ++ [c] := by
  unfold appendEscapedRune
  rw [if_neg (by
    rintro (e | e)
    · exact h.1 e
    · exact h.2.1 e), if_pos h.2.2]

/-- Every other character is written as an escape sequence: a backslash and at
least one more character. -/
theorem appendEscapedRune_escape (wide : Nat → Bool) (buf : Text) (c : Char)
    (h : ¬ Plain wide c) :
    ∃ e rest, appendEscapedRune wide buf c = buf ++ '\\' :: e :: rest := by
  unfold appendEscapedRune
  by_cases h1 : c = '"' ∨ c = '\\'
  · rw [if_pos h1]
    exact ⟨_, _, rfl⟩
  · rw [if_neg h1]
    by_cases h2 : IsPrint wide c.toNat = true
    · exact absurd ⟨fun e => h1 (Or.inl e), fun e => h1 (Or.inr e), h2⟩ h
    · rw [if_neg h2]
      have key : ∀ (p : Prop) [Decidable p] (x y : Text),
          (∃ e rest, x = buf ++ '\\' :: e :: rest) → (∃ e rest, y = buf ++ '\\' :: e :: rest) →
          ∃ e rest, (if p then x else y) = buf ++ '\\' :: e :: rest := by
        intro p _ x y hx hy
        split <;> assumption
      repeat' (first | exact ⟨_, _, rfl⟩ | apply key)

theorem appendQuotedUnit_buf (wide : Nat → Bool) (buf : Text) (u : StrUnit) :
    appendQuotedUnit wide buf u = buf ++ appendQuotedUnit wide [] u := by
  cases u with
  | invalid b => simp [appendQuotedUnit]
  | rune c =>
    simp only [appendQuotedUnit]
    by_cases h : Plain wide c
    · rw [appendEscapedRune_plain wide buf c h, appendEscapedRune_plain wide [] c h]
      rfl
    · unfold appendEscapedRune
      simp only [List.nil_append, apply_ite (fun l => buf ++ l)]

theorem foldl_appendQuotedUnit (wide : Nat → Bool) :
    ∀ (s : GoString) (buf : Text),
      s.foldl (appendQuotedUnit wide) buf = buf ++ (s.map (appendQuotedUnit wide [])).flatten
  | [], buf => by simp
  | u :: s, buf => by
    rw [List.foldl_cons, foldl_appendQuotedUnit wide s, appendQuotedUnit_buf]
    simp

/-- The quoted form, unit by unit. -/
theorem Quote_eq_flatten (wide : Nat → Bool) (s : GoString) :
    Quote wide s = ['"'] ++ (s.map (appendQuotedUnit wide [])).flatten ++ ['"'] := by
  unfold Quote
  rw [foldl_appendQuotedUnit]
  simp

theorem appendQuotedUnit_rune_length (wide : Nat → Bool) (c : Char) :
    1 ≤ (appendQuotedUnit wide [] (StrUnit.rune c)).length ∧
      ((appendQuotedUnit wide [] (StrUnit.rune c)).length = 1 → Plain wide c) := by
  simp only [appendQuotedUnit]
  by_cases h : Plain wide c
  · rw [appendEscapedRune_plain wide [] c h]
    exact ⟨by simp, fun _ => h⟩
  · obtain ⟨e, rest, he⟩ := appendEscapedRune_escape wide [] c h
    rw [he]
    constructor
    · simp
    · intro hl
      simp at hl

/-- The quoted runes of a text take as many characters as the text only when
every character is written as it is. -/
theorem quoted_length (wide : Nat → Bool) :
    ∀ (t : Text),
      t.length ≤ ((GoString.ofText t).map (appendQuotedUnit wide [])).flatten.length ∧
        (((GoString.ofText t).map (appendQuotedUnit wide [])).flatten.length = t.length →
          ∀ c ∈ t, Plain wide c)
  | [] => by simp [GoString.ofText]
  | c :: t => by
    have ih := quoted_length wide t
    have hc := appendQuotedUnit_rune_length wide c
    have e : ((GoString.ofText (c :: t)).map (appendQuotedUnit wide [])).flatten.length =
        (appendQuotedUnit wide [] (StrUnit.rune c)).length +
          ((GoString.ofText t).map (appendQuotedUnit wide [])).flatten.length := by
      simp [GoString.ofText]
    rw [e, List.length_cons]
    constructor
    · omega
    · intro hl d hd
      rcases List.mem_cons.1 hd with e1 | e1
      · rw [e1]
        exact hc.2 (by omega)
      · exact ih.2 (by omega) d e1

/-- The quoted form of a text is the text between double quotes exactly when
every character of the text is written as it is. -/
theorem Quote_unchanged_iff (wide : Nat → Bool) (t : Text) :
    Quote wide (GoString.ofText t) = ['"'] ++ t ++ ['"'] ↔ ∀ c ∈ t, Plain wide c := by
  rw [Quote_eq_flatten]
  constructor
  · intro h
    have h1 : ((GoString.ofText t).map (appendQuotedUnit wide [])).flatten = t := by
      simpa using h
    exact (quoted_length wide t).2 (by rw [h1])
  · intro h
    have h1 : ((GoString.ofText t).map (appendQuotedUnit wide [])).flatten = t := by
      induction t with
      | nil => rfl
      | cons c t ih =>
        have hc := appendEscapedRune_plain wide [] c (h c (List.mem_cons_self c t))
        have ih2 := ih (fun d hd => h d (List.mem_cons_of_mem c hd))
        simp only [GoString.ofText, List.map_cons, List.flatten_cons, appendQuotedUnit] at ih2 ⊢
        rw [hc, ih2]
        rfl
    rw [h1]

/-- C9 as stated fails: the source name `a"b` is written to the footer with a
backslash before its double quote, so the output does not end with the name
unchanged between two double quotes. -/
theorem C9_counterexample :
    GenerateMakefileFromMarkdown (fun _ => false) (GoString.ofText ['a', '"', 'b'])
        (mkDocument []) =
      some (some ("\n# This makefile is generated by makedown from ".toList ++
        ['"', 'a', '\\', '"', 'b', '"', '\n']), [], none) ∧
      HasSuffix ("\n# This makefile is generated by makedown from ".toList ++
          ['"', 'a', '\\', '"', 'b', '"', '\n'])
        ("\n# This makefile is generated by makedown from ".toList ++ ['"'] ++
          ['a', '"', 'b'] ++ ['"', '\n']) = false := by
  decide

/-- C9, amended: the output of a conversion that returns ends with the footer
line in which the source name stands in the quoted form of `strconv.Quote`
(what the verb `%q` prints): between two double quotes, every character that is
printable and neither a double quote nor a backslash as it is, a double quote
and a backslash behind a backslash, every other character and every byte that
is no valid UTF-8 as an escape sequence that a backslash starts (`\a`, `\b`,
`\f`, `\n`, `\r`, `\t`, `\v`, `\x` and two digits, `\u` and four digits, `\U`
and eight digits); so the name stands unchanged between the double quotes
exactly when each of its characters is printable and neither a double quote nor
a backslash. -/
theorem C9_footer_quotes_source_name (wide : Nat → Bool) (name : GoString) (n : Node)
    (out : Text) (ts : List Text) (err : Option GoError)
    (h : GenerateMakefileFromMarkdown wide name n = some (some out, ts, err)) :
    List.IsSuffix ("\n# This makefile is generated by makedown from ".toList ++ Quote wide name
        ++ ['\n']) out ∧
      Quote wide name = ['"'] ++ (name.map (appendQuotedUnit wide [])).flatten ++ ['"'] ∧
      (∀ (c : Char), Plain wide c → appendQuotedUnit wide [] (StrUnit.rune c) = [c]) ∧
      (∀ (c : Char), ¬ Plain wide c →
        ∃ e rest, appendQuotedUnit wide [] (StrUnit.rune c) = '\\' :: e :: rest) ∧
      (∀ (b : Nat), appendQuotedUnit wide [] (StrUnit.invalid b) =
        ['\\', 'x', hexDigit (b / 16), hexDigit b]) ∧
      (∀ (t : Text), name = GoString.ofText t →
        (Quote wide name = ['"'] ++ t ++ ['"'] ↔ ∀ c ∈ t, Plain wide c)) ∧
      appendQuotedUnit wide [] (StrUnit.rune '"') = ['\\', '"'] ∧
      appendQuotedUnit wide [] (StrUnit.rune '\\') = ['\\', '\\'] ∧
      appendQuotedUnit wide [] (StrUnit.rune '\x07') = ['\\', 'a'] ∧
      appendQuotedUnit wide [] (StrUnit.rune '\x08') = ['\\', 'b'] ∧
      appendQuotedUnit wide [] (StrUnit.rune '\x0c') = ['\\', 'f'] ∧
      appendQuotedUnit wide [] (StrUnit.rune '\n') = ['\\', 'n'] ∧
      appendQuotedUnit wide [] (StrUnit.rune '\r') = ['\\', 'r'] ∧
      appendQuotedUnit wide [] (StrUnit.rune '\t') = ['\\', 't'] ∧
      appendQuotedUnit wide [] (StrUnit.rune '\x0b') = ['\\', 'v'] ∧
      appendQuotedUnit wide [] (StrUnit.rune '\x01') = ['\\', 'x', '0', '1'] ∧
      appendQuotedUnit wide [] (StrUnit.rune '\x7f') = ['\\', 'x', '7', 'f'] ∧
      appendQuotedUnit wide [] (StrUnit.rune (Char.ofNat 173)) =
        ['\\', 'u', '0', '0', 'a', 'd'] ∧
      appendQuotedUnit wide [] (StrUnit.invalid 255) = ['\\', 'x', 'f', 'f'] ∧
      (wide 8232 = false → appendQuotedUnit wide [] (StrUnit.rune (Char.ofNat 8232)) =
        ['\\', 'u', '2', '0', '2', '8']) ∧
      (wide 917505 = false → appendQuotedUnit wide [] (StrUnit.rune (Char.ofNat 917505)) =
        ['\\', 'U', '0', '0', '0', 'e', '0', '0', '0', '1']) := by
  refine ⟨?_, Quote_eq_flatten wide name, ?_, ?_, fun b => rfl, ?_, rfl, rfl, rfl, rfl, rfl,
    rfl, rfl, rfl, rfl, rfl, rfl, rfl, rfl, ?_, ?_⟩
  · rw [GenerateMakefileFromMarkdown_eq] at h
    cases he : emitNode [] n with
    | none => simp [he] at h
    | some a =>
      simp only [he, Option.map_some', Option.some.injEq, Prod.mk.injEq] at h
      rw [← h.1]
      exact ⟨a.1, rfl⟩
  · intro c hc
    exact appendEscapedRune_plain wide [] c hc
  · intro c hc
    obtain ⟨e, rest, he⟩ := appendEscapedRune_escape wide [] c hc
    exact ⟨e, rest, he⟩
  · intro t ht
    rw [ht]
    exact Quote_unchanged_iff wide t
  · intro hw
    simp [appendQuotedUnit, appendEscapedRune, IsPrint, hw, hexDigit, lowerhex]
  · intro hw
    simp [appendQuotedUnit, appendEscapedRune, IsPrint, hw, hexDigit, lowerhex]

/-- C9 (amended) at the source name `a"b` and a document with one target: the
footer holds the name with a backslash before its double quote, and the quoted
form is not the name unchanged. -/
theorem C9_footer_quotes_source_name_witness :
    List.IsSuffix ("\n# This makefile is generated by makedown from ".toList ++
        ['"', 'a', '\\', '"', 'b', '"'] ++ ['\n'])
        ("all:\n\tx\n".toList ++ footer (fun _ => false) (GoString.ofText ['a', '"', 'b'])) ∧
      (Quote (fun _ => false) (GoString.ofText ['a', '"', 'b']) =
          ['"'] ++ ['a', '"', 'b'] ++ ['"'] ↔
        ∀ c ∈ ['a', '"', 'b'], Plain (fun _ => false) c) :=
  ⟨(C9_footer_quotes_source_name (fun _ => false) (GoString.ofText ['a', '"', 'b'])
      (mkDocument [mkHeading "all:".toList, mkCodeBlock "x".toList])
      ("all:\n\tx\n".toList ++ footer (fun _ => false) (GoString.ofText ['a', '"', 'b']))
      ["all:".toList] none
      (by rw [GenerateMakefileFromMarkdown_eq]; decide)).1,
    (C9_footer_quotes_source_name (fun _ => false) (GoString.ofText ['a', '"', 'b'])
      (mkDocument [mkHeading "all:".toList, mkCodeBlock "x".toList])
      ("all:\n\tx\n".toList ++ footer (fun _ => false) (GoString.ofText ['a', '"', 'b']))
      ["all:".toList] none
      (by rw [GenerateMakefileFromMarkdown_eq]; decide)).2.2.2.2.2.1 ['a', '"', 'b'] rfl⟩

theorem makedownWalker_fmterr (st : WalkerState) (node : NodeRef) (entering : Bool)
    (r : WalkerState × WalkStatus) (h : makedownWalker st node entering = some r) :
    r.1.fmterr = st.fmterr := by
  cases entering with
  | false =>
    rw [makedownWalker_leave] at h
    injection h with h
    subst h
    rfl
  | true =>
    rw [makedownWalker_enter] at h
    cases hv : visitOut node with
    | none => simp [hv] at h
    | some a =>
      simp only [hv, Option.map_some', Option.some.injEq] at h
      subst h
      rfl

theorem leafWalker_fmterr (st : LeafState) (node : NodeRef) (entering : Bool)
    (r : LeafState × WalkStatus) (h : leafWalker st node entering = some r) :
    r.1.fmterr = st.fmterr := by
  unfold leafWalker at h
  split at h
  · split at h <;>
    · injection h with h
      subst h
      rfl
  · injection h with h
    subst h
    rfl

/-- C10: when `GenerateMakefileFromMarkdown` returns, its error result is nil
and its output bytes are not nil; no visit of `makedownWalker` or of
`leafWalker` changes the error variable. -/
theorem C10_error_is_nil (wide : Nat → Bool) (name : GoString) (n : Node)
    (out : Option Text) (ts : List Text) (err : Option GoError)
    (h : GenerateMakefileFromMarkdown wide name n = some (out, ts, err)) :
    err = none ∧ out.isSome = true ∧
      (∀ (st : WalkerState) (node : NodeRef) (entering : Bool) (r : WalkerState × WalkStatus),
        makedownWalker st node entering = some r → r.1.fmterr = st.fmterr) ∧
      (∀ (st : LeafState) (node : NodeRef) (entering : Bool) (r : LeafState × WalkStatus),
        leafWalker st node entering = some r → r.1.fmterr = st.fmterr) := by
  refine ⟨?_, ?_, makedownWalker_fmterr, leafWalker_fmterr⟩
  · rw [GenerateMakefileFromMarkdown_eq] at h
    cases he : emitNode [] n with
    | none => simp [he] at h
    | some a =>
      simp only [he, Option.map_some', Option.some.injEq, Prod.mk.injEq] at h
      exact h.2.2.symm
  · rw [GenerateMakefileFromMarkdown_eq] at h
    cases he : emitNode [] n with
    | none => simp [he] at h
    | some a =>
      simp only [he, Option.map_some', Option.some.injEq, Prod.mk.injEq] at h
      rw [← h.1]
      rfl

/-- C10 at a document with a prerequisite line and a recipe. -/
theorem C10_error_is_nil_witness :
    (none : Option GoError) = none ∧
      (some ("all: a.c\nall:\n\tx\n".toList ++ footer (fun _ => false) (GoString.ofText "m.md".toList))).isSome
        = true ∧
      (∀ (st : WalkerState) (node : NodeRef) (entering : Bool) (r : WalkerState × WalkStatus),
        makedownWalker st node entering = some r → r.1.fmterr = st.fmterr) ∧
      (∀ (st : LeafState) (node : NodeRef) (entering : Bool) (r : LeafState × WalkStatus),
        leafWalker st node entering = some r → r.1.fmterr = st.fmterr) :=
  C10_error_is_nil (fun _ => false) (GoString.ofText "m.md".toList)
    (mkDocument [mkHeading "all:".toList, mkBlockQuote [mkParagraph ": a.c".toList],
      mkCodeBlock "x".toList])
    (some ("all: a.c\nall:\n\tx\n".toList ++ footer (fun _ => false) (GoString.ofText "m.md".toList)))
    ["all:".toList] none
    (by rw [GenerateMakefileFromMarkdown_eq]; decide)

/-! ## The sibling searches -/

/-- The search finds the nearest sibling of the wanted type: the one that no
sibling of that type stands before. -/
theorem findSiblingWithTypeLoop_found (T : NodeType) (s : Node) (earlier : List Node) :
    ∀ (between : List Node), s.type = T → (∀ b ∈ between, b.type ≠ T) →
      findSiblingWithTypeLoop T (between ++ s :: earlier) = (true, some ⟨earlier, s⟩)
  | [], hs, _ => by simp [findSiblingWithTypeLoop, hs]
  | b :: between, hs, hb => by
    have h1 : b.type ≠ T := hb b (List.mem_cons_self b between)
    have ih := findSiblingWithTypeLoop_found T s earlier between hs
      (fun c hc => hb c (List.mem_cons_of_mem b hc))
    simpa [findSiblingWithTypeLoop, h1] using ih

/-- The search fails when no sibling has the wanted type. -/
theorem findSiblingWithTypeLoop_not_found (T : NodeType) :
    ∀ (prevs : List Node), (∀ p ∈ prevs, p.type ≠ T) →
      findSiblingWithTypeLoop T prevs = (false, none)
  | [], _ => by simp [findSiblingWithTypeLoop]
  | p :: ps, h => by
    have h1 : p.type ≠ T := h p (List.mem_cons_self p ps)
    have ih := findSiblingWithTypeLoop_not_found T ps
      (fun c hc => h c (List.mem_cons_of_mem p hc))
    simpa [findSiblingWithTypeLoop, h1] using ih

/-- Every run of siblings either holds no sibling of a type, or splits at the
nearest sibling of that type. -/
theorem nearest_sibling_cases (T : NodeType) :
    ∀ (prevs : List Node), (∀ p ∈ prevs, p.type ≠ T) ∨
      ∃ between s earlier, prevs = between ++ s :: earlier ∧ s.type = T ∧
        ∀ b ∈ between, b.type ≠ T
  | [] => Or.inl (by simp)
  | p :: ps => by
    by_cases hp : p.type = T
    · exact Or.inr ⟨[], p, ps, rfl, hp, by simp⟩
    · rcases nearest_sibling_cases T ps with h | ⟨between, s, earlier, h1, h2, h3⟩
      · left
        intro q hq
        rcases List.mem_cons.1 hq with e | e
        · rw [e]; exact hp
        · exact h q e
      · right
        refine ⟨p :: between, s, earlier, by rw [h1]; rfl, h2, ?_⟩
        intro q hq
        rcases List.mem_cons.1 hq with e | e
        · rw [e]; exact hp
        · exact h3 q e

/-- The bounded search passes the siblings that have neither the wanted nor the
stop type. -/
theorem findSiblingWithTypeBeforeLoop_skip (T S : NodeType) (rest : List Node) :
    ∀ (between : List Node), (∀ b ∈ between, b.type ≠ T ∧ b.type ≠ S) →
      findSiblingWithTypeBeforeLoop T S (between ++ rest) =
        findSiblingWithTypeBeforeLoop T S rest
  | [], _ => by simp
  | b :: between, hb => by
    have h1 := hb b (List.mem_cons_self b between)
    have ih := findSiblingWithTypeBeforeLoop_skip T S rest between
      (fun c hc => hb c (List.mem_cons_of_mem b hc))
    simpa [findSiblingWithTypeBeforeLoop, h1.1, h1.2] using ih

/-- Without a sibling of the stop type the bounded search is the unbounded
search. -/
theorem findSiblingWithTypeBeforeLoop_no_stop (T S : NodeType) :
    ∀ (prevs : List Node), (∀ p ∈ prevs, p.type ≠ S) →
      findSiblingWithTypeBeforeLoop T S prevs = findSiblingWithTypeLoop T prevs
  | [], _ => by simp [findSiblingWithTypeBeforeLoop, findSiblingWithTypeLoop]
  | p :: ps, h => by
    have h1 : p.type ≠ S := h p (List.mem_cons_self p ps)
    have ih := findSiblingWithTypeBeforeLoop_no_stop T S ps
      (fun c hc => h c (List.mem_cons_of_mem p hc))
    simp [findSiblingWithTypeBeforeLoop, findSiblingWithTypeLoop, h1, ih]

/-- A heading that does not match gives exactly the result `(false, "")`. -/
theorem isHeadingWithColon_false (x : NodeRef) (h : (isHeadingWithColon x).1 = false) :
    isHeadingWithColon x = (false, []) := by
  unfold isHeadingWithColon at h ⊢
  by_cases hh : x.node.type = NodeType.Heading
  · simp only [hh, if_true] at h ⊢
    cases hl : x.node.LastChild with
    | none => rfl
    | some lw =>
      simp only [hl] at h ⊢
      by_cases hs : HasSuffix lw.literal [':'] = true
      · simp [hs] at h
      · simp [hs]
  · simp [hh]

/-- The governing heading is looked for at the nearest preceding heading
only. -/
theorem findSiblingHeadingWithColon_found (n h : Node) (between earlier : List Node)
    (hh : h.type = NodeType.Heading) (hb : ∀ b ∈ between, b.type ≠ NodeType.Heading) :
    findSiblingHeadingWithColon ⟨between ++ h :: earlier, n⟩ =
      isHeadingWithColon ⟨earlier, h⟩ := by
  unfold findSiblingHeadingWithColon findSiblingWithType
  simp only [findSiblingWithTypeLoop_found NodeType.Heading h earlier between hh hb]
  cases hb1 : (isHeadingWithColon ⟨earlier, h⟩).1
  · rw [isHeadingWithColon_false _ hb1]
  · rcases he : isHeadingWithColon ⟨earlier, h⟩ with ⟨b, t⟩
    rw [he] at hb1
    simp only at hb1
    subst hb1
    rfl

/-- Without a preceding heading there is no governing heading. -/
theorem findSiblingHeadingWithColon_not_found (n : Node) (prevs : List Node)
    (h : ∀ p ∈ prevs, p.type ≠ NodeType.Heading) :
    findSiblingHeadingWithColon ⟨prevs, n⟩ = (false, []) := by
  unfold findSiblingHeadingWithColon findSiblingWithType
  simp only [findSiblingWithTypeLoop_not_found NodeType.Heading prevs h]

/-- The bounded search up to the nearest sibling of the stop type succeeds
exactly when a sibling of the wanted type stands before it. -/
theorem findSiblingWithTypeBeforeLoop_found_iff (T S : NodeType) (s : Node)
    (earlier : List Node) (hs : s.type = S) :
    ∀ (between : List Node), (∀ b ∈ between, b.type ≠ S) →
      ((findSiblingWithTypeBeforeLoop T S (between ++ s :: earlier)).1 = true ↔
        ∃ b ∈ between, b.type = T)
  | [], _ => by simp [findSiblingWithTypeBeforeLoop, hs]
  | b :: between, hb => by
    have h1 : b.type ≠ S := hb b (List.mem_cons_self b between)
    have ih := findSiblingWithTypeBeforeLoop_found_iff T S s earlier hs between
      (fun c hc => hb c (List.mem_cons_of_mem b hc))
    by_cases h2 : b.type = T
    · have h3 : ¬ T = S := fun e => h1 (h2.trans e)
      simp [findSiblingWithTypeBeforeLoop, h2, h3]
    · simp [findSiblingWithTypeBeforeLoop, h1, h2, ih]

/-! ## The matchers -/

/-- C11 fails on the code: on a block quote with no text below it
`isBlockQuoteWithColon` does not return (the slice `prerequisites[1:]` of the
logging statement is out of range on the empty string); a block quote makes it
fail exactly when the leaves below it hold no text. -/
theorem C11_empty_block_quote_does_not_return (prevs : List Node) :
    isBlockQuoteWithColon ⟨prevs, mkBlockQuote []⟩ = none ∧
      ∀ (node : NodeRef), isBlockQuoteWithColon node = none ↔
        node.node.type = NodeType.BlockQuote ∧ leafText node.node = [] := by
  constructor
  · rw [isBlockQuoteWithColon_eq]
    rfl
  · intro node
    rw [isBlockQuoteWithColon_eq]
    by_cases hb : node.node.type = NodeType.BlockQuote
    · simp only [hb, if_true, true_and]
      cases hl : leafText node.node with
      | nil => simp
      | cons c p =>
        by_cases hc : c = ':'
        · simp [hc]
        · simp [hc]
    · simp [hb]

/-- C12: for a code block whose nearest preceding heading sibling `h` satisfies
`isHeadingWithColon` with the name `t`, `isCodeBlockUnderHeadingWithColon`
returns `(true, first, t, literal)` where `first` holds exactly when no sibling
between `h` and the node is a code block; it returns a match in that case only,
and `(false, false, "", "")` in every other case. -/
theorem C12_code_block_under_heading (prevs : List Node) (n : Node) :
    (∀ (between : List Node) (h : Node) (earlier : List Node) (t : Text),
        n.type = NodeType.CodeBlock → prevs = between ++ h :: earlier →
        h.type = NodeType.Heading → (∀ b ∈ between, b.type ≠ NodeType.Heading) →
        isHeadingWithColon ⟨earlier, h⟩ = (true, t) →
        ∃ first, isCodeBlockUnderHeadingWithColon ⟨prevs, n⟩ = (true, first, t, n.literal) ∧
          (first = true ↔ ∀ b ∈ between, b.type ≠ NodeType.CodeBlock)) ∧
      (∀ (first : Bool) (t r : Text),
        isCodeBlockUnderHeadingWithColon ⟨prevs, n⟩ = (true, first, t, r) →
        n.type = NodeType.CodeBlock ∧
          ∃ between h earlier, prevs = between ++ h :: earlier ∧ h.type = NodeType.Heading ∧
            (∀ b ∈ between, b.type ≠ NodeType.Heading) ∧
            isHeadingWithColon ⟨earlier, h⟩ = (true, t)) ∧
      ((isCodeBlockUnderHeadingWithColon ⟨prevs, n⟩).1 = true ∨
        isCodeBlockUnderHeadingWithColon ⟨prevs, n⟩ = (false, false, [], [])) := by
  refine ⟨?_, ?_, ?_⟩
  · intro between h earlier t hn hp hh hb ht
    subst hp
    have h1 := findSiblingHeadingWithColon_found n h between earlier hh hb
    rw [ht] at h1
    have h2 := findSiblingWithTypeBeforeLoop_found_iff NodeType.CodeBlock NodeType.Heading h
      earlier hh between hb
    refine ⟨!(findSiblingWithTypeBefore ⟨between ++ h :: earlier, n⟩ NodeType.CodeBlock
      NodeType.Heading).1, ?_, ?_⟩
    · simp [isCodeBlockUnderHeadingWithColon, hn, h1]
    · unfold findSiblingWithTypeBefore
      constructor
      · intro hf b hbm hbt
        have h3 := h2.2 ⟨b, hbm, hbt⟩
        rw [h3] at hf
        exact Bool.noConfusion hf
      · intro hall
        cases hc : (findSiblingWithTypeBeforeLoop NodeType.CodeBlock NodeType.Heading
          (between ++ h :: earlier)).1
        · rfl
        · obtain ⟨b, hbm, hbt⟩ := h2.1 hc
          exact absurd hbt (hall b hbm)
  · intro first t r hr
    by_cases hn : n.type = NodeType.CodeBlock
    · refine ⟨hn, ?_⟩
      rcases nearest_sibling_cases NodeType.Heading prevs with hno | ⟨between, h, earlier, e1, e2, e3⟩
      · have h1 := findSiblingHeadingWithColon_not_found n prevs hno
        simp [isCodeBlockUnderHeadingWithColon, hn, h1] at hr
      · refine ⟨between, h, earlier, e1, e2, e3, ?_⟩
        subst e1
        have h1 := findSiblingHeadingWithColon_found n h between earlier e2 e3
        rcases he : isHeadingWithColon ⟨earlier, h⟩ with ⟨b, t2⟩
        rw [he] at h1
        cases b
        · simp [isCodeBlockUnderHeadingWithColon, hn, h1] at hr
        · simp only [isCodeBlockUnderHeadingWithColon, hn, h1, if_true, Prod.mk.injEq] at hr
          rw [hr.2.2.1]
    · simp [isCodeBlockUnderHeadingWithColon, hn] at hr
  · by_cases hn : n.type = NodeType.CodeBlock
    · rcases he : findSiblingHeadingWithColon ⟨prevs, n⟩ with ⟨b, t⟩
      cases b
      · right
        simp [isCodeBlockUnderHeadingWithColon, hn, he]
      · left
        simp [isCodeBlockUnderHeadingWithColon, hn, he]
    · right
      simp [isCodeBlockUnderHeadingWithColon, hn]

/-- C12 at a code block that follows the heading `a:`, an earlier code block
and a paragraph: a match that is not the first code block. -/
theorem C12_code_block_under_heading_witness :
    ∃ first,
      isCodeBlockUnderHeadingWithColon
          ⟨[mkParagraph "p".toList, mkCodeBlock "r0".toList, mkHeading "a:".toList,
            mkHeading "b:".toList], mkCodeBlock "r1".toList⟩ =
        (true, first, "a:".toList, (mkCodeBlock "r1".toList).literal) ∧
      (first = true ↔
        ∀ b ∈ [mkParagraph "p".toList, mkCodeBlock "r0".toList],
          b.type ≠ NodeType.CodeBlock) :=
  (C12_code_block_under_heading
    [mkParagraph "p".toList, mkCodeBlock "r0".toList, mkHeading "a:".toList,
      mkHeading "b:".toList] (mkCodeBlock "r1".toList)).1
    [mkParagraph "p".toList, mkCodeBlock "r0".toList] (mkHeading "a:".toList)
    [mkHeading "b:".toList] "a:".toList rfl rfl rfl (by decide) (by decide)

/-- C13: `isBlockQuoteWithColon` returns the match `(true, t, p)` exactly when
the node is a block quote, the literals of the leaves below it concatenate to a
colon followed by `p`, and `findSiblingHeadingWithColon` gives `(true, t)`:
only the first colon is removed. -/
theorem C13_block_quote_with_colon (node : NodeRef) (t p : Text) :
    isBlockQuoteWithColon node = some (true, t, p) ↔
      node.node.type = NodeType.BlockQuote ∧ leafText node.node = ':' :: p ∧
        findSiblingHeadingWithColon node = (true, t) := by
  rw [isBlockQuoteWithColon_eq]
  by_cases hb : node.node.type = NodeType.BlockQuote
  · simp only [hb, if_true, true_and]
    cases hl : leafText node.node with
    | nil => simp
    | cons c q =>
      rcases hf : findSiblingHeadingWithColon node with ⟨b, t2⟩
      by_cases hc : c = ':'
      · subst hc
        simp only [if_true, Option.some.injEq, Prod.mk.injEq, List.cons.injEq, true_and]
        constructor
        · rintro ⟨h1, h2, h3⟩
          exact ⟨h3, h1, h2⟩
        · rintro ⟨h1, h2, h3⟩
          exact ⟨h2, h3, h1⟩
      · simp [hc]
  · simp [hb]

/-- C14: `findSiblingHeadingWithColon` is `isHeadingWithColon` at the nearest
preceding sibling of heading type, so `(false, "")` when that heading has no
trailing colon, whatever the earlier siblings are, and `(false, "")` when no
preceding sibling is a heading; only the preceding siblings are looked at. -/
theorem C14_governing_heading (prevs : List Node) (n : Node) :
    (∀ (between : List Node) (h : Node) (earlier : List Node),
        prevs = between ++ h :: earlier → h.type = NodeType.Heading →
        (∀ b ∈ between, b.type ≠ NodeType.Heading) →
        findSiblingHeadingWithColon ⟨prevs, n⟩ = isHeadingWithColon ⟨earlier, h⟩ ∧
          ((isHeadingWithColon ⟨earlier, h⟩).1 = false →
            findSiblingHeadingWithColon ⟨prevs, n⟩ = (false, []))) ∧
      ((∀ p ∈ prevs, p.type ≠ NodeType.Heading) →
        findSiblingHeadingWithColon ⟨prevs, n⟩ = (false, [])) := by
  refine ⟨?_, findSiblingHeadingWithColon_not_found n prevs⟩
  intro between h earlier hp hh hb
  subst hp
  have h1 := findSiblingHeadingWithColon_found n h between earlier hh hb
  refine ⟨h1, ?_⟩
  intro hf
  rw [h1, isHeadingWithColon_false _ hf]

/-- C14 at a node whose nearest preceding heading has no trailing colon while
an earlier heading has one. -/
theorem C14_governing_heading_witness :
    findSiblingHeadingWithColon
        ⟨[mkParagraph "p".toList, mkHeading "plain".toList, mkHeading "a:".toList],
          mkCodeBlock "r".toList⟩ =
      isHeadingWithColon ⟨[mkHeading "a:".toList], mkHeading "plain".toList⟩ ∧
      ((isHeadingWithColon ⟨[mkHeading "a:".toList], mkHeading "plain".toList⟩).1 = false →
        findSiblingHeadingWithColon
          ⟨[mkParagraph "p".toList, mkHeading "plain".toList, mkHeading "a:".toList],
            mkCodeBlock "r".toList⟩ = (false, [])) :=
  (C14_governing_heading
    [mkParagraph "p".toList, mkHeading "plain".toList, mkHeading "a:".toList]
    (mkCodeBlock "r".toList)).1
    [mkParagraph "p".toList] (mkHeading "plain".toList) [mkHeading "a:".toList]
    rfl rfl (by decide)

/-- C15: `isHeadingWithColon` returns `(true, s)` exactly when the node is a
heading that has a last child whose literal is `s` and `s` ends with a colon;
in every other case it returns `(false, "")`, so for a heading without
children. -/
theorem C15_heading_with_colon (prevs : List Node) (n : Node) :
    (∀ (s : Text), isHeadingWithColon ⟨prevs, n⟩ = (true, s) ↔
        n.type = NodeType.Heading ∧
          ∃ init last, n.children = init ++ [last] ∧ last.literal = s ∧
            s.getLast? = some ':') ∧
      ((isHeadingWithColon ⟨prevs, n⟩).1 = true ∨
        isHeadingWithColon ⟨prevs, n⟩ = (false, [])) ∧
      (n.children = [] → isHeadingWithColon ⟨prevs, n⟩ = (false, [])) := by
  refine ⟨?_, ?_, ?_⟩
  · intro s
    unfold isHeadingWithColon Node.LastChild
    by_cases hh : n.type = NodeType.Heading
    · simp only [hh, if_true, true_and]
      cases hl : n.children.getLast? with
      | none =>
        simp only [Prod.mk.injEq, Bool.false_eq_true, false_and, false_iff]
        rintro ⟨init, last, hc, -, -⟩
        rw [hc, List.getLast?_concat] at hl
        exact Option.noConfusion hl
      | some lw =>
        obtain ⟨ys, hys⟩ := List.getLast?_eq_some_iff.1 hl
        simp only
        by_cases hs : HasSuffix lw.literal [':'] = true
        · simp only [hs, if_true, Prod.mk.injEq, true_and]
          constructor
          · intro e
            exact ⟨ys, lw, hys, e, by rw [← e]; exact (HasSuffix_colon_iff _).1 hs⟩
          · rintro ⟨init, last, hc, hlit, -⟩
            rw [hys] at hc
            have := List.append_inj_right' hc rfl
            simp only [List.cons.injEq, and_true] at this
            rw [this]
            exact hlit
        · rw [if_neg hs]
          simp only [Prod.mk.injEq, Bool.false_eq_true, false_and, false_iff]
          rintro ⟨init, last, hc, hlit, hcol⟩
          rw [hys] at hc
          have := List.append_inj_right' hc rfl
          simp only [List.cons.injEq, and_true] at this
          apply hs
          rw [this, hlit]
          exact (HasSuffix_colon_iff _).2 hcol
    · simp [hh]
  · cases hb : (isHeadingWithColon ⟨prevs, n⟩).1
    · exact Or.inr (isHeadingWithColon_false _ hb)
    · exact Or.inl rfl
  · intro hc
    simp [isHeadingWithColon, Node.LastChild, hc]

/-- C16: let `s` be the nearest preceding sibling whose type is the wanted type
`T` or the stop type `S`; `findSiblingWithTypeBefore` returns `(true, s)` when
`s` has the type `T` and `T` differs from `S`, and reports not found when `s`
has the type `S` or when there is no such sibling; when no preceding sibling
has the type `S` it returns what `findSiblingWithType` returns. -/
theorem C16_bounded_sibling_search (prevs : List Node) (n : Node) (T S : NodeType) :
    (∀ (between : List Node) (s : Node) (earlier : List Node),
        prevs = between ++ s :: earlier → (∀ b ∈ between, b.type ≠ T ∧ b.type ≠ S) →
        (s.type = T → T ≠ S →
          findSiblingWithTypeBefore ⟨prevs, n⟩ T S = (true, some ⟨earlier, s⟩)) ∧
        (s.type = S →
          findSiblingWithTypeBefore ⟨prevs, n⟩ T S = (false, some ⟨earlier, s⟩))) ∧
      ((∀ p ∈ prevs, p.type ≠ T ∧ p.type ≠ S) →
        findSiblingWithTypeBefore ⟨prevs, n⟩ T S = (false, none)) ∧
      ((∀ p ∈ prevs, p.type ≠ S) →
        findSiblingWithTypeBefore ⟨prevs, n⟩ T S = findSiblingWithType ⟨prevs, n⟩ T) := by
  refine ⟨?_, ?_, ?_⟩
  · intro between s earlier hp hb
    subst hp
    unfold findSiblingWithTypeBefore
    simp only [findSiblingWithTypeBeforeLoop_skip T S (s :: earlier) between hb]
    constructor
    · intro hs hts
      simp [findSiblingWithTypeBeforeLoop, hs, hts]
    · intro hs
      simp [findSiblingWithTypeBeforeLoop, hs]
  · intro h
    have h1 := findSiblingWithTypeBeforeLoop_skip T S [] prevs h
    simp only [List.append_nil] at h1
    unfold findSiblingWithTypeBefore
    rw [h1]
    rfl
  · intro h
    exact findSiblingWithTypeBeforeLoop_no_stop T S prevs h

/-- C16 at a code block searched for before the nearest heading: an earlier
code block stands before the heading, and without a heading the bounded search
is the unbounded one. -/
theorem C16_bounded_sibling_search_witness :
    findSiblingWithTypeBefore
        ⟨[mkParagraph "p".toList, mkCodeBlock "r0".toList, mkHeading "a:".toList],
          mkCodeBlock "r1".toList⟩ NodeType.CodeBlock NodeType.Heading =
      (true, some ⟨[mkHeading "a:".toList], mkCodeBlock "r0".toList⟩) :=
  ((C16_bounded_sibling_search
    [mkParagraph "p".toList, mkCodeBlock "r0".toList, mkHeading "a:".toList]
    (mkCodeBlock "r1".toList) NodeType.CodeBlock NodeType.Heading).1
    [mkParagraph "p".toList] (mkCodeBlock "r0".toList) [mkHeading "a:".toList]
    rfl (by decide)).1 rfl (by decide)

/-- C17: `findSiblingWithType` returns the preceding sibling of the wanted type
that no sibling of that type stands before, however far it is; it reports not
found exactly when no preceding sibling has the type; what it returns is one of
the preceding siblings. -/
theorem C17_nearest_sibling_of_type (prevs : List Node) (n : Node) (T : NodeType) :
    (∀ (between : List Node) (s : Node) (earlier : List Node),
        prevs = between ++ s :: earlier → s.type = T → (∀ b ∈ between, b.type ≠ T) →
        findSiblingWithType ⟨prevs, n⟩ T = (true, some ⟨earlier, s⟩)) ∧
      (findSiblingWithType ⟨prevs, n⟩ T = (false, none) ↔ ∀ p ∈ prevs, p.type ≠ T) ∧
      (findSiblingWithType ⟨prevs, n⟩ T = (false, none) ∨
        ∃ between s earlier, prevs = between ++ s :: earlier ∧ s.type = T ∧
          (∀ b ∈ between, b.type ≠ T) ∧
          findSiblingWithType ⟨prevs, n⟩ T = (true, some ⟨earlier, s⟩)) := by
  refine ⟨?_, ?_, ?_⟩
  · intro between s earlier hp hs hb
    subst hp
    exact findSiblingWithTypeLoop_found T s earlier between hs hb
  · constructor
    · intro hf
      rcases nearest_sibling_cases T prevs with h | ⟨between, s, earlier, h1, h2, h3⟩
      · exact h
      · subst h1
        have := findSiblingWithTypeLoop_found T s earlier between h2 h3
        unfold findSiblingWithType at hf
        rw [this] at hf
        simp at hf
    · intro h
      exact findSiblingWithTypeLoop_not_found T prevs h
  · rcases nearest_sibling_cases T prevs with h | ⟨between, s, earlier, h1, h2, h3⟩
    · exact Or.inl (findSiblingWithTypeLoop_not_found T prevs h)
    · right
      refine ⟨between, s, earlier, h1, h2, h3, ?_⟩
      subst h1
      exact findSiblingWithTypeLoop_found T s earlier between h2 h3

/-- C17 at a search for a heading over a paragraph and a code block: the
heading behind them is found, not the earlier one. -/
theorem C17_nearest_sibling_of_type_witness :
    findSiblingWithType
        ⟨[mkParagraph "p".toList, mkCodeBlock "r0".toList, mkHeading "a:".toList,
          mkHeading "b:".toList], mkCodeBlock "r1".toList⟩ NodeType.Heading =
      (true, some ⟨[mkHeading "b:".toList], mkHeading "a:".toList⟩) :=
  (C17_nearest_sibling_of_type
    [mkParagraph "p".toList, mkCodeBlock "r0".toList, mkHeading "a:".toList,
      mkHeading "b:".toList] (mkCodeBlock "r1".toList) NodeType.Heading).1
    [mkParagraph "p".toList, mkCodeBlock "r0".toList] (mkHeading "a:".toList)
    [mkHeading "b:".toList] rfl rfl (by decide)

/-! ## The indentation of recipes -/

theorem splitLines_ne_nil : ∀ (t : Text), splitLines t ≠ []
  | [] => by simp [splitLines]
  | c :: rest => by
    unfold splitLines
    split
    · simp
    · split <;> simp

/-- The pieces of `splitLines` are the pieces of the library's split at line
feeds. -/
theorem splitLines_eq_splitOn : ∀ (t : Text), splitLines t = List.splitOn '\n' t
  | [] => rfl
  | c :: rest => by
    have ih := splitLines_eq_splitOn rest
    have hne := splitLines_ne_nil rest
    unfold List.splitOn at ih ⊢
    rw [List.splitOnP_cons, ← ih, splitLines]
    by_cases hc : c = '\n'
    · simp [hc]
    · have hb : (c == '\n') = false := by simpa using hc
      simp only [hc, if_false, hb, Bool.false_eq_true]
      cases hs : splitLines rest with
      | nil => exact absurd hs hne
      | cons l ls => rfl

/-- A split at a line feed: the pieces of both sides. -/
theorem splitLines_append (y : Text) :
    ∀ (x : Text), splitLines (x ++ '\n' :: y) = splitLines x ++ splitLines y
  | [] => by simp [splitLines]
  | c :: x => by
    have ih := splitLines_append y x
    have hne := splitLines_ne_nil x
    rw [List.cons_append, splitLines, ih, splitLines]
    by_cases hc : c = '\n'
    · simp [hc]
    · simp only [hc, if_false]
      cases hs : splitLines x with
      | nil => exact absurd hs hne
      | cons l ls => rfl

theorem splitLines_length : ∀ (t : Text), (splitLines t).length = t.count '\n' + 1
  | [] => rfl
  | c :: rest => by
    have ih := splitLines_length rest
    have hne := splitLines_ne_nil rest
    rw [splitLines]
    by_cases hc : c = '\n'
    · subst hc
      simp [ih]
    · have hc2 : ¬ (c == '\n') = true := by simpa using hc
      simp only [hc, if_false]
      rw [List.count_cons, if_neg hc2, Nat.add_zero, ← ih]
      cases hs : splitLines rest with
      | nil => exact absurd hs hne
      | cons l ls => rfl

theorem splitLines_no_newline :
    ∀ (t : Text), ∀ piece ∈ splitLines t, '\n' ∉ piece
  | [], piece, h => by
    simp only [splitLines, List.mem_singleton] at h
    subst h
    simp
  | c :: rest, piece, h => by
    have ih := splitLines_no_newline rest
    have hne := splitLines_ne_nil rest
    rw [splitLines] at h
    by_cases hc : c = '\n'
    · simp only [hc, if_true, List.mem_cons] at h
      rcases h with h | h
      · subst h
        simp
      · exact ih piece h
    · simp only [hc, if_false] at h
      cases hs : splitLines rest with
      | nil => exact absurd hs hne
      | cons l ls =>
        rw [hs] at h ih
        simp only [List.mem_cons] at h
        rcases h with h | h
        · subst h
          intro hm
          rcases List.mem_cons.1 hm with e | e
          · exact hc e.symm
          · exact ih l (List.mem_cons_self l ls) e
        · exact ih piece (List.mem_cons_of_mem l h)

theorem foldl_indent (ls : List Text) :
    ∀ (acc : Text),
      ls.foldl (fun recipesWithIndent line => recipesWithIndent ++ ['\t'] ++ line ++ ['\n']) acc =
        acc ++ (ls.map fun line => ['\t'] ++ line ++ ['\n']).flatten := by
  induction ls with
  | nil => intro acc; simp
  | cons l ls ih =>
    intro acc
    rw [List.foldl_cons, ih]
    simp [List.append_assoc]

/-- The loop of `addIndents` as a concatenation over the lines. -/
theorem addIndents_eq_flatten (s : Text) :
    addIndents s =
      ((splitLines (replaceCRLF s)).map fun line => ['\t'] ++ line ++ ['\n']).flatten := by
  unfold addIndents
  rw [foldl_indent]
  simp

/-- The replacement of line endings keeps a line feed at the end. -/
theorem replaceCRLF_ends_newline :
    ∀ (u : Text), ∃ w, replaceCRLF (u ++ ['\n']) = w ++ ['\n']
  | [] => ⟨[], by simp [replaceCRLF]⟩
  | c :: u => by
    obtain ⟨w, hw⟩ := replaceCRLF_ends_newline u
    rw [List.cons_append, replaceCRLF]
    split
    · exact ⟨w, hw⟩
    · exact ⟨c :: w, by rw [hw]; rfl⟩

/-- The replacement of line endings goes through a line feed that no carriage
return stands before. -/
theorem replaceCRLF_append (b : Text) :
    ∀ (a : Text), a.getLast? ≠ some '\r' →
      replaceCRLF (a ++ '\n' :: b) = replaceCRLF a ++ '\n' :: replaceCRLF b
  | [], _ => by simp [replaceCRLF]
  | [c], h => by
    have hc : c ≠ '\r' := by simpa using h
    simp [replaceCRLF, hc]
  | c :: d :: a, h => by
    have h2 : (d :: a).getLast? ≠ some '\r' := by
      simpa [List.getLast?_cons_cons] using h
    have ih := replaceCRLF_append b (d :: a) h2
    have e1 : replaceCRLF (c :: (d :: a ++ '\n' :: b)) =
        if c = '\r' ∧ some d = some '\n' then replaceCRLF (d :: a ++ '\n' :: b)
        else c :: replaceCRLF (d :: a ++ '\n' :: b) := by
      rw [replaceCRLF]
      rfl
    have e2 : replaceCRLF (c :: d :: a) =
        if c = '\r' ∧ some d = some '\n' then replaceCRLF (d :: a)
        else c :: replaceCRLF (d :: a) := by
      rw [replaceCRLF]
      rfl
    rw [List.cons_append, e1, e2, ih]
    split <;> rfl

theorem count_newline_lines :
    ∀ (ls : List Text), (∀ piece ∈ ls, '\n' ∉ piece) →
      (ls.map fun line => ['\t'] ++ line ++ ['\n']).flatten.count '\n' = ls.length
  | [], _ => rfl
  | l :: ls, h => by
    have ih := count_newline_lines ls (fun p hp => h p (List.mem_cons_of_mem l hp))
    have hl : l.count '\n' = 0 := List.count_eq_zero.2 (h l (List.mem_cons_self l ls))
    simp only [List.map_cons, List.flatten_cons, List.count_append, ih, hl, List.length_cons]
    have e1 : List.count '\n' ['\t'] = 0 := by decide
    have e2 : List.count '\n' ['\n'] = 1 := by decide
    omega

theorem getLast?_cons_eq_some (c a : Char) (r : Text) :
    (c :: r).getLast? = some a ↔ (r = [] ∧ c = a) ∨ r.getLast? = some a := by
  cases r with
  | nil => simp
  | cons d r => simp [List.getLast?_cons_cons]

theorem newline_prefix_iff (r : Text) : List.IsPrefix ['\n'] r ↔ r.head? = some '\n' := by
  cases r with
  | nil => simp
  | cons d r =>
    simp only [List.cons_prefix_cons, List.nil_prefix, and_true, List.head?_cons,
      Option.some.injEq]
    exact eq_comm

theorem crlf_prefix_cons (c : Char) (r : Text) :
    List.IsPrefix ['\r', '\n'] (c :: r) ↔ c = '\r' ∧ r.head? = some '\n' := by
  rw [List.cons_prefix_cons, newline_prefix_iff]
  constructor
  · rintro ⟨h1, h2⟩
    exact ⟨h1.symm, h2⟩
  · rintro ⟨h1, h2⟩
    exact ⟨h1.symm, h2⟩

theorem indentBody_head (t : Text) :
    (indentBody t).head? = some '\n' ↔ t = [] ∨ t.head? = some '\n' := by
  cases t with
  | nil => simp [indentBody]
  | cons c r =>
    by_cases hc : c = '\n'
    · simp [indentBody, hc]
    · simp [indentBody, hc]

theorem addIndents_eq_indentBody_aux :
    ∀ (t : Text),
      ((splitLines t).map fun line => ['\t'] ++ line ++ ['\n']).flatten = '\t' :: indentBody t
  | [] => rfl
  | c :: r => by
    have ih := addIndents_eq_indentBody_aux r
    have hne := splitLines_ne_nil r
    rw [splitLines, indentBody]
    by_cases hc : c = '\n'
    · simp only [hc, if_true, List.map_cons, List.flatten_cons, ih]
      rfl
    · simp only [hc, if_false]
      cases hs : splitLines r with
      | nil => exact absurd hs hne
      | cons l ls =>
        rw [hs] at ih
        simp only [List.map_cons, List.flatten_cons, List.singleton_append, List.cons_append,
          List.cons.injEq, true_and, List.nil_append] at ih ⊢
        rw [ih]

/-- The function `addIndents`, character by character. -/
theorem addIndents_eq_indentBody (s : Text) :
    addIndents s = '\t' :: indentBody (replaceCRLF s) := by
  rw [addIndents_eq_flatten, addIndents_eq_indentBody_aux]

/-- The result of the indentation holds a carriage return before a line feed
where the text does, and at its end when the text ends with a carriage
return. -/
theorem crlf_infix_indentBody :
    ∀ (t : Text), List.IsInfix ['\r', '\n'] (indentBody t) ↔
      t.getLast? = some '\r' ∨ List.IsInfix ['\r', '\n'] t
  | [] => by
    simp [indentBody, List.infix_cons_iff]
  | c :: r => by
    have ih := crlf_infix_indentBody r
    rw [getLast?_cons_eq_some, List.infix_cons_iff, crlf_prefix_cons]
    by_cases hc : c = '\n'
    · have e : indentBody (c :: r) = '\n' :: '\t' :: indentBody r := by simp [indentBody, hc]
      rw [e, List.infix_cons_iff, List.infix_cons_iff, ih, crlf_prefix_cons, crlf_prefix_cons]
      subst hc
      simp
    · have e : indentBody (c :: r) = c :: indentBody r := by simp [indentBody, hc]
      rw [e, List.infix_cons_iff, ih, crlf_prefix_cons, indentBody_head]
      constructor
      · rintro (⟨h1, h2 | h2⟩ | h | h)
        · exact Or.inl (Or.inl ⟨h2, h1⟩)
        · exact Or.inr (Or.inl ⟨h1, h2⟩)
        · exact Or.inl (Or.inr h)
        · exact Or.inr (Or.inr h)
      · rintro ((⟨h1, h2⟩ | h) | ⟨h1, h2⟩ | h)
        · exact Or.inl ⟨h2, Or.inl h1⟩
        · exact Or.inr (Or.inl h)
        · exact Or.inl ⟨h1, Or.inr h2⟩
        · exact Or.inr (Or.inr h)

theorem replaceCRLF_cons (c : Char) (rest : Text) :
    replaceCRLF (c :: rest) =
      if c = '\r' ∧ rest.head? = some '\n' then replaceCRLF rest else c :: replaceCRLF rest := by
  rw [replaceCRLF]

theorem replaceCRLF_newline (x : Text) : replaceCRLF ('\n' :: x) = '\n' :: replaceCRLF x := by
  rw [replaceCRLF_cons, if_neg (fun h => absurd h.1 (by decide))]

theorem replaceCRLF_eq_nil : ∀ (r : Text), replaceCRLF r = [] ↔ r = []
  | [] => by simp [replaceCRLF]
  | c :: r => by
    rw [replaceCRLF_cons]
    by_cases hd : c = '\r' ∧ r.head? = some '\n'
    · obtain ⟨x, hx⟩ := List.head?_eq_some_iff.1 hd.2
      rw [if_pos hd, hx, replaceCRLF_newline]
      simp
    · rw [if_neg hd]
      simp

theorem replaceCRLF_head (r : Text) :
    (replaceCRLF r).head? = some '\n' ↔
      r.head? = some '\n' ∨ List.IsPrefix ['\r', '\n'] r := by
  cases r with
  | nil => simp [replaceCRLF]
  | cons c r =>
    rw [replaceCRLF_cons, crlf_prefix_cons]
    by_cases hd : c = '\r' ∧ r.head? = some '\n'
    · obtain ⟨x, hx⟩ := List.head?_eq_some_iff.1 hd.2
      rw [if_pos hd]
      have : (replaceCRLF r).head? = some '\n' := by rw [hx, replaceCRLF_newline]; rfl
      simp [this, hd]
    · rw [if_neg hd]
      simp [hd]

theorem replaceCRLF_getLast : ∀ (s : Text),
    (replaceCRLF s).getLast? = some '\r' ↔ s.getLast? = some '\r'
  | [] => by simp [replaceCRLF]
  | c :: r => by
    have ih := replaceCRLF_getLast r
    rw [replaceCRLF_cons, getLast?_cons_eq_some]
    by_cases hd : c = '\r' ∧ r.head? = some '\n'
    · obtain ⟨x, hx⟩ := List.head?_eq_some_iff.1 hd.2
      have hne : r ≠ [] := by rw [hx]; simp
      rw [if_pos hd, ih]
      simp [hne]
    · rw [if_neg hd, getLast?_cons_eq_some, ih, replaceCRLF_eq_nil]

theorem crlf_infix_replaceCRLF : ∀ (s : Text),
    List.IsInfix ['\r', '\n'] (replaceCRLF s) ↔ List.IsInfix ['\r', '\r', '\n'] s
  | [] => by simp [replaceCRLF]
  | c :: r => by
    have ih := crlf_infix_replaceCRLF r
    rw [replaceCRLF_cons, List.infix_cons_iff, List.cons_prefix_cons]
    by_cases hd : c = '\r' ∧ r.head? = some '\n'
    · obtain ⟨x, hx⟩ := List.head?_eq_some_iff.1 hd.2
      have hp : ¬ List.IsPrefix ['\r', '\n'] r := by
        rw [hx, crlf_prefix_cons]
        simp
      rw [if_pos hd, ih]
      simp [hp]
    · rw [if_neg hd, List.infix_cons_iff, crlf_prefix_cons, replaceCRLF_head, ih]
      constructor
      · rintro (⟨h1, h2 | h2⟩ | h)
        · exact absurd ⟨h1, h2⟩ hd
        · exact Or.inl ⟨h1.symm, h2⟩
        · exact Or.inr h
      · rintro (⟨h1, h2⟩ | h)
        · exact Or.inl ⟨h1.symm, Or.inr h2⟩
        · exact Or.inr h

/-- The replacement of line endings turns a carriage return with the line feed
behind it into a line feed, whatever stands before and behind. -/
theorem replaceCRLF_crlf (b : Text) :
    ∀ (a : Text), replaceCRLF (a ++ '\r' :: '\n' :: b) = replaceCRLF a ++ '\n' :: replaceCRLF b
  | [] => by
    rw [List.nil_append, replaceCRLF_cons, if_pos ⟨rfl, rfl⟩, replaceCRLF_newline]
    rfl
  | [c] => by
    have e : replaceCRLF [c] = [c] := by simp [replaceCRLF]
    have ih := replaceCRLF_crlf b []
    rw [List.nil_append] at ih
    rw [e, List.singleton_append, replaceCRLF_cons, ih,
      if_neg (fun h => absurd h.2 (by simp))]
    rfl
  | c :: d :: a => by
    have ih := replaceCRLF_crlf b (d :: a)
    rw [List.cons_append, replaceCRLF_cons, ih, replaceCRLF_cons c (d :: a)]
    simp only [List.cons_append, List.head?_cons]
    split <;> rfl

/-- The replacement of line endings leaves a text alone in which no carriage
return stands before a line feed. -/
theorem replaceCRLF_id : ∀ (s : Text), ¬ List.IsInfix ['\r', '\n'] s → replaceCRLF s = s
  | [], _ => by simp [replaceCRLF]
  | c :: r, h => by
    rw [List.infix_cons_iff, crlf_prefix_cons] at h
    have ih := replaceCRLF_id r (fun hr => h (Or.inr hr))
    rw [replaceCRLF_cons, if_neg (fun hd => h (Or.inl hd)), ih]

/-- C18: `addIndents` is the concatenation, over the pieces of the split at
every line feed of the text `s'`, of a tab, the piece and a line feed, where
`s'` is the text with each `"\r\n"` replaced by `"\n"`: `s'` is the text itself
when it holds no `"\r\n"`, and for a text `a ++ "\r\n" ++ b` it is `a'`, a line
feed and `b'`.  There is one piece more than line feeds in `s'`, no piece holds
a line feed, so the result has that many lines; a text that ends in a line feed
gives a last line that is a lone tab. -/
theorem C18_addIndents_lines (s : Text) :
    addIndents s =
        ((List.splitOn '\n' (replaceCRLF s)).map fun piece =>
          ['\t'] ++ piece ++ ['\n']).flatten ∧
      (¬ List.IsInfix ['\r', '\n'] s → replaceCRLF s = s) ∧
      (∀ (a b : Text), s = a ++ ['\r', '\n'] ++ b →
        replaceCRLF s = replaceCRLF a ++ ['\n'] ++ replaceCRLF b) ∧
      (List.splitOn '\n' (replaceCRLF s)).length = (replaceCRLF s).count '\n' + 1 ∧
      (∀ piece ∈ List.splitOn '\n' (replaceCRLF s), '\n' ∉ piece) ∧
      (addIndents s).count '\n' = (replaceCRLF s).count '\n' + 1 ∧
      (s.getLast? = some '\n' → ∃ u, addIndents s = u ++ ['\n', '\t', '\n']) ∧
      addIndents "a\n".toList = "\ta\n\t\n".toList ∧ addIndents [] = "\t\n".toList ∧
      addIndents "a\r\nb\n".toList = "\ta\n\tb\n\t\n".toList := by
  rw [← splitLines_eq_splitOn]
  refine ⟨addIndents_eq_flatten s, replaceCRLF_id s, ?_, splitLines_length _,
    splitLines_no_newline _, ?_, ?_, by decide, by decide, by decide⟩
  · intro a b hs
    rw [hs, List.append_assoc, List.append_assoc]
    exact replaceCRLF_crlf b a
  · rw [addIndents_eq_flatten, count_newline_lines _ (splitLines_no_newline _),
      splitLines_length]
  · intro hs
    obtain ⟨u, hu⟩ := List.getLast?_eq_some_iff.1 hs
    obtain ⟨w, hw⟩ := replaceCRLF_ends_newline u
    rw [addIndents_eq_flatten, hu, hw, splitLines_append [] w]
    rcases List.eq_nil_or_concat (splitLines w) with hnil | ⟨ls, l, hl⟩
    · exact absurd hnil (splitLines_ne_nil w)
    · refine ⟨(ls.map fun line => ['\t'] ++ line ++ ['\n']).flatten ++ '\t' :: l, ?_⟩
      rw [hl]
      simp [splitLines]

/-- C18 at the text `a`, carriage return, line feed, `b`, line feed: the
replacement gives `a`, line feed, `b`, line feed, and the result is the three
lines of `a`, of `b` and of the empty last piece. -/
theorem C18_addIndents_lines_witness :
    replaceCRLF "a\r\nb\n".toList = replaceCRLF "a".toList ++ ['\n'] ++ replaceCRLF "b\n".toList ∧
      replaceCRLF "a".toList = "a".toList ∧ replaceCRLF "b\n".toList = "b\n".toList ∧
      addIndents "a\r\nb\n".toList =
        ((List.splitOn '\n' "a\nb\n".toList).map fun piece =>
          ['\t'] ++ piece ++ ['\n']).flatten ∧
      addIndents "a\r\nb\n".toList = "\ta\n\tb\n\t\n".toList :=
  ⟨(C18_addIndents_lines "a\r\nb\n".toList).2.2.1 "a".toList "b\n".toList rfl,
    (C18_addIndents_lines "a".toList).2.1 (by decide),
    (C18_addIndents_lines "b\n".toList).2.1 (by decide),
    (C18_addIndents_lines "a\r\nb\n".toList).1,
    (C18_addIndents_lines "a\r\nb\n".toList).2.2.2.2.2.2.2.2.2⟩

/-- C19 as stated fails: for the text that is a lone carriage return the result
is a tab, the carriage return and a line feed, which holds `"\r\n"`. -/
theorem C19_counterexample :
    addIndents ['\r'] = ['\t', '\r', '\n'] ∧ List.IsInfix ['\r', '\n'] (addIndents ['\r']) :=
  ⟨by decide, ⟨['\t'], [], by decide⟩⟩

/-- C19, amended: the result of `addIndents` holds the sequence `"\r\n"`
exactly when the text ends with a carriage return or holds the sequence
`"\r\r\n"`; for every other text every line of the result ends with a bare line
feed. -/
theorem C19_addIndents_crlf_iff (s : Text) :
    List.IsInfix ['\r', '\n'] (addIndents s) ↔
      s.getLast? = some '\r' ∨ List.IsInfix ['\r', '\r', '\n'] s := by
  rw [addIndents_eq_indentBody, List.infix_cons_iff, crlf_infix_indentBody, replaceCRLF_getLast,
    crlf_infix_replaceCRLF, List.cons_prefix_cons]
  simp

/-- C20: for texts `a` and `b` where `a` does not end with a carriage return,
`addIndents` of `a`, a line feed and `b` is `addIndents a` followed by
`addIndents b`. -/
theorem C20_addIndents_append (a b : Text) (h : a.getLast? ≠ some '\r') :
    addIndents (a ++ ['\n'] ++ b) = addIndents a ++ addIndents b := by
  rw [addIndents_eq_flatten, addIndents_eq_flatten, addIndents_eq_flatten, List.append_assoc,
    List.singleton_append, replaceCRLF_append b a h, splitLines_append]
  simp

/-- C20 at the texts `x` and `y`, carriage return, line feed, `z`. -/
theorem C20_addIndents_append_witness :
    addIndents ("x".toList ++ ['\n'] ++ "y\r\nz".toList) =
      addIndents "x".toList ++ addIndents "y\r\nz".toList :=
  C20_addIndents_append "x".toList "y\r\nz".toList (by decide)

end Makedown
